import Mathlib

/-!
# Verification of the `rsroll` content-defined chunking library

Shallow embedding of the Rust sources (`src/lib.rs`, `src/bup.rs`,
`src/gear.rs`, `src/fastcdc.rs`) and proofs of the specification claims.

Conventions:
* machine integers are modelled as `Nat` with explicit `% 2 ^ w`
  where wraparound matters (`u64` arithmetic of the Gear engine,
  `u32` digest packing of the Bup engine);
* byte buffers are `List Nat`;
* stateful Rust methods become state-passing functions
  `state → args → state × result`.

The 256-entry pseudorandom table `G` consumed by the Gear engine lives in
`_gear_rand.rs`, which is not part of the provided sources; every claim
settled here is independent of the table's values, so the table is carried
as an explicit parameter `G : Nat → Nat` (entries are reduced `% 2 ^ 64`
at use sites, as a `u64` table guarantees).
-/

namespace Rsroll

/-! ## The `RollingHash` trait (src/lib.rs)

`find_chunk_edge_cond`'s default body is the loop

    for (i, &b) in buf.iter().enumerate() {
        self.roll_byte(b);
        if cond(self) { return Some(i + 1); }
    }
    None

modelled generically over the state type `σ` and the engine's
`roll_byte`; the accumulated index `i` is made an explicit argument of
the recursive worker. -/

/-- Worker for the trait-default `find_chunk_edge_cond`: `i` is the number
of bytes consumed so far. -/
def findCEGo {σ : Type} (rollB : σ → Nat → σ) (cond : σ → Bool)
    (i : Nat) (s : σ) : List Nat → σ × Option Nat
  | [] => (s, none)
  | b :: rest =>
    let s' := rollB s b
    if cond s' then (s', some (i + 1)) else findCEGo rollB cond (i + 1) s' rest

/-- Trait-default `RollingHash::find_chunk_edge_cond` (src/lib.rs:51-63). -/
def findCE {σ : Type} (rollB : σ → Nat → σ) (cond : σ → Bool)
    (s : σ) (buf : List Nat) : σ × Option Nat :=
  findCEGo rollB cond 0 s buf

/-- Trait-default `RollingHash::roll`: sequential `roll_byte` over the buffer. -/
def rollList {σ : Type} (rollB : σ → Nat → σ) (s : σ) (buf : List Nat) : σ :=
  buf.foldl rollB s

/-- `roll_windowed` (src/lib.rs:121-127): feed only the last `window_size`
bytes when the buffer is at least one window long
(`data.windows(window_size).last().unwrap_or(data)`). -/
def rollWindowed {σ : Type} (rollB : σ → Nat → σ) (window_size : Nat)
    (s : σ) (data : List Nat) : σ :=
  let last_window :=
    if data.length < window_size then data
    else data.drop (data.length - window_size)
  rollList rollB s last_window

/-- `Chunker::for_each_chunk_end` (src/lib.rs:77-86), fuelled: repeatedly
call `chunk_end`; on `some i` split the buffer, pass the chunk to the
collected output and continue on the rest; on `none` stop.  Returns the
chunks in order, the unconsumed remainder, and the final state. -/
def forEachChunkEnd {σ : Type} (chunkEnd : σ → List Nat → σ × Option Nat) :
    Nat → σ → List Nat → List (List Nat) × List Nat × σ
  | 0, s, buf => ([], buf, s)
  | fuel + 1, s, buf =>
    match chunkEnd s buf with
    | (s', none) => ([], buf, s')
    | (s', some i) =>
      let r := forEachChunkEnd chunkEnd fuel s' (buf.drop i)
      (buf.take i :: r.1, r.2.1, r.2.2)

/-! ## The Gear engine (src/gear.rs)

State is the single `u64` accumulator.
`WINDOW_SIZE = mem::size_of::<Digest>() * 8 = 64`. -/

/-- `gear::WINDOW_SIZE`. -/
def gearWindowSize : Nat := 8 * 8

/-- `Gear::roll_byte`: `digest <<= 1; digest = digest.wrapping_add(G[b])`,
all in `u64`. -/
def gearRollByte (G : Nat → Nat) (d : Nat) (b : Nat) : Nat :=
  let d' := (d <<< 1) % 2 ^ 64
  (d' + G b % 2 ^ 64) % 2 ^ 64

/-- `Gear::roll`: the windowed override. -/
def gearRoll (G : Nat → Nat) (d : Nat) (buf : List Nat) : Nat :=
  rollWindowed (gearRollByte G) gearWindowSize d buf

/-- `Gear::new` / `Gear::default` / `Gear::reset`: zero accumulator. -/
def gearNew : Nat := 0

/-- A stand-in assignment for the (value-irrelevant) Gear table, used to
instantiate closed statements. -/
def gTrivial : Nat → Nat := fun _ => 0

/-! ## The Bup engine (src/bup.rs)

`Bup<WINDOW_SIZE>` is const-generic in Rust; here every operation takes
the window size `W` explicitly.  The state mirrors the struct fields:
running sums `s1`, `s2` (`usize`, subtraction modelled by truncated `Nat`
subtraction exactly in the order the code performs it — the safety claim
shows it never underflows from reachable states), the circular `window`
(a `List Nat` of length `W`) and the cursor `wofs`.  The `unsafe`
`get_unchecked(self.wofs)` is rendered as `getD _ 0`; the safety claim
proves `wofs` is always in bounds, where the two coincide. -/

/-- `bup::DEFAULT_WINDOW_BITS = 6`, so `DEFAULT_WINDOW_SIZE = 64`. -/
def bupDefaultWindowSize : Nat := 1 <<< 6

/-- `bup::CHAR_OFFSET`. -/
def CHAR_OFFSET : Nat := 31

structure BupState where
  s1 : Nat
  s2 : Nat
  window : List Nat
  wofs : Nat
  deriving Repr, DecidableEq

/-- `Bup::default`: `s1 = W*CHAR_OFFSET`, `s2 = W*(W-1)*CHAR_OFFSET`,
zeroed window, cursor 0.  (`Bup::new` and `Bup::reset` are the same.) -/
def bupDefault (W : Nat) : BupState :=
  { s1 := W * CHAR_OFFSET
    s2 := W * (W - 1) * CHAR_OFFSET
    window := List.replicate W 0
    wofs := 0 }

/-- `Bup::add` (src/bup.rs:110-115): `s1 += add; s1 -= drop;
s2 += s1; s2 -= W * (drop + CHAR_OFFSET)`, in exactly that order. -/
def bupAdd (W : Nat) (s : BupState) (drop addB : Nat) : BupState :=
  let s1 := s.s1 + addB - drop
  let s2 := s.s2 + s1 - W * (drop + CHAR_OFFSET)
  { s with s1 := s1, s2 := s2 }

/-- `Bup::roll_byte` (src/bup.rs:40-52): read the byte under the cursor,
`add` it out and the new byte in, overwrite the slot, advance the cursor
modulo `W`. -/
def bupRollByte (W : Nat) (s : BupState) (newch : Nat) : BupState :=
  let prevch := s.window.getD s.wofs 0
  let s' := bupAdd W s prevch newch
  { s' with window := s.window.set s.wofs newch, wofs := (s.wofs + 1) % W }

/-- `Bup::digest` (src/bup.rs:59-61): `((s1 as u32) << 16) | ((s2 as u32) & 0xffff)`. -/
def bupDigest (s : BupState) : Nat :=
  (s.s1 % 2 ^ 32) <<< 16 % 2 ^ 32 ||| (s.s2 % 2 ^ 32 &&& 0xffff)

/-- `Bup::roll`: delegates to `roll_windowed` (src/bup.rs:54-56). -/
def bupRoll (W : Nat) (s : BupState) (buf : List Nat) : BupState :=
  rollWindowed (bupRollByte W) W s buf

/-- The fused fast loop of `Bup::find_chunk_edge_cond` (src/bup.rs:75-91),
written as a recursion over the not-yet-added bytes.  `pw` is the current
`WINDOW_SIZE`-byte window of the stream (the Rust code reads it from
`buf.windows(WINDOW_SIZE + 1)`: its head is the byte to shift out, and
the incoming byte is the head of `rest`); `consumed` counts bytes fed so
far.  The engine's stored `window`/`wofs` stay stale during the loop and
are reconciled (`wofs = 0; window.copy_from_slice(..)`) on success or on
exhaustion, exactly as in the source. -/
def bupFastLoop (W : Nat) (cond : BupState → Bool) (s : BupState)
    (pw : List Nat) (rest : List Nat) (consumed : Nat) : BupState × Option Nat :=
  match rest with
  | [] => ({ s with wofs := 0, window := pw }, none)
  | b :: rest' =>
    let drop := pw.headD 0
    let s' := bupAdd W s drop b
    let pw' := pw.tail ++ [b]
    if cond s' then ({ s' with wofs := 0, window := pw' }, some (consumed + 1))
    else bupFastLoop W cond s' pw' rest' (consumed + 1)

/-- `Bup::find_chunk_edge_cond` (src/bup.rs:63-93): a plain byte-by-byte
loop over the first window (`buf.windows(WINDOW_SIZE).next().unwrap_or(buf)`,
i.e. `buf.take W` — the same loop as the trait default), then, when
`buf.len() > WINDOW_SIZE`, the fused drop-oldest/add-newest loop. -/
def bupFindCE (W : Nat) (cond : BupState → Bool) (s : BupState)
    (buf : List Nat) : BupState × Option Nat :=
  match findCE (bupRollByte W) cond s (buf.take W) with
  | (s1, some i) => (s1, some i)
  | (s1, none) =>
    if W < buf.length then bupFastLoop W cond s1 (buf.take W) (buf.drop W) W
    else (s1, none)

/-- `count_bits` (src/bup.rs:128-136): discard the matched low
`chunk_bits` bits, discard one extra bit (the deliberate compatibility
quirk), and count the remaining trailing one-bits.  `u32::trailing_ones`
is written with structural fuel (`n + 1` halvings always suffice) so that
it reduces definitionally. -/
def trailingOnesAux : Nat → Nat → Nat
  | 0, _ => 0
  | fuel + 1, n => if n % 2 = 1 then trailingOnesAux fuel (n / 2) + 1 else 0

def trailingOnes (n : Nat) : Nat := trailingOnesAux (n + 1) n

def count_bits (chunk_bits digest : Nat) : Nat :=
  let rsum := digest >>> chunk_bits
  let rsum := rsum >>> 1
  trailingOnes rsum + chunk_bits

/-! ## FastCDC (src/fastcdc.rs) -/

/-- `u32::count_ones` / `u64::count_ones`, with structural fuel
(`n + 1` halvings always suffice). -/
def countOnesAux : Nat → Nat → Nat
  | 0, _ => 0
  | fuel + 1, n => if n = 0 then 0 else n % 2 + countOnesAux fuel (n / 2)

def countOnes (n : Nat) : Nat := countOnesAux (n + 1) n

/-- `usize::next_power_of_two`: the least power of two that is `≥ n`
(with `next_power_of_two 0 = 1`), via `npot n = 2 * npot ⌈n/2⌉`. -/
def nextPowerOfTwoAux : Nat → Nat → Nat
  | 0, _ => 1
  | fuel + 1, n => if n ≤ 1 then 1 else 2 * nextPowerOfTwoAux fuel ((n + 1) / 2)

def nextPowerOfTwo (n : Nat) : Nat := nextPowerOfTwoAux n n

/-- `u64::rotate_left` (`k` is already reduced to `0..64` by the caller's
`& 0x3f`). -/
def rotateLeft64 (n k : Nat) : Nat :=
  (n <<< k) % 2 ^ 64 ||| n >>> ((64 - k) % 64)

/-- The mask-growing loop of `get_masks` (src/fastcdc.rs:16-24):
`v = v * a + c` (wrapping, `u64`), `mask = (mask | 1).rotate_left(v & 0x3f)`
until `mask.count_ones()` reaches `target`.  The Rust `while` loop has no
termination proof, so the embedding carries fuel; `get_masks` only ever
needs it off the published-constant branch, and with ample fuel. -/
def getMasksLoop (target : Nat) : Nat → Nat → Nat → Nat × Nat
  | 0, v, mask => (v, mask)
  | fuel + 1, v, mask =>
    if countOnes mask < target then
      let v' := (v * 6364136223846793005 + 1442695040888963407) % 2 ^ 64
      let mask' := rotateLeft64 (mask ||| 1) (v' % 64)
      getMasksLoop target fuel v' mask'
    else (v, mask)

/-- `get_masks` (src/fastcdc.rs:6-27).  For `bits == 13` the two published
constants are returned verbatim; otherwise two rounds of the growing loop
produce `mask_long` (popcount `bits - nc_level`) and then `mask_short`
(popcount `bits + nc_level`). -/
def get_masks (avg_size nc_level seed : Nat) : Nat × Nat :=
  let bits := countOnes (nextPowerOfTwo avg_size - 1)
  if bits = 13 then (0x0003590703530000, 0x0000d90003530000)
  else
    let r1 := getMasksLoop (bits - nc_level) 1000000 seed 0
    let mask_long := r1.2
    let r2 := getMasksLoop (bits + nc_level) 1000000 r1.1 mask_long
    (r2.2, mask_long)

structure FastCDC where
  current_chunk_size : Nat
  gear : Nat
  mask_short : Nat
  mask_long : Nat
  min_size : Nat
  avg_size : Nat
  max_size : Nat
  deriving Repr, DecidableEq

namespace FastCDC

/-- `FastCDC::new_with_chunk_bits` (src/fastcdc.rs:65-83), with
`SPREAD_BITS = 3`. -/
def new_with_chunk_bits (chunk_bits : Nat) : FastCDC :=
  let masks := get_masks (1 <<< chunk_bits) 2 0
  { current_chunk_size := 0
    gear := gearNew
    mask_short := masks.1
    mask_long := masks.2
    min_size := 1 <<< (chunk_bits - 3 + 1)
    avg_size := 1 <<< chunk_bits
    max_size := 1 <<< (chunk_bits + 3) }

/-- `FastCDC::new`: default `chunk_bits = 13`. -/
def new : FastCDC := new_with_chunk_bits 13

/-- `FastCDC::reset` (src/fastcdc.rs:56-59). -/
def resetF (c : FastCDC) : FastCDC :=
  { c with gear := gearNew, current_chunk_size := 0 }

/-- Phase 1 of `chunk_end` (src/fastcdc.rs:96-101): while below
`min_size`, roll bytes with no boundary testing. -/
def phase1 (G : Nat → Nat) (c : FastCDC) (left : List Nat) :
    FastCDC × List Nat :=
  if c.current_chunk_size < c.min_size then
    ({ c with
        gear := gearRoll G c.gear
          (left.take (min (c.min_size - c.current_chunk_size) left.length)),
        current_chunk_size := c.current_chunk_size +
          min (c.min_size - c.current_chunk_size) left.length },
     left.drop (min (c.min_size - c.current_chunk_size) left.length))
  else (c, left)

/-- Phase 2 of `chunk_end` (src/fastcdc.rs:104-119): while below
`avg_size`, search for an edge under `mask_short`; `Sum.inr i` is a match
`i` bytes (1-indexed) into this phase's slice. -/
def phase2 (G : Nat → Nat) (c : FastCDC) (left : List Nat) :
    (FastCDC × List Nat) ⊕ Nat :=
  if c.current_chunk_size < c.avg_size then
    match findCE (gearRollByte G) (fun g => (g &&& c.mask_short) == 0)
        c.gear
        (left.take (min (c.avg_size - c.current_chunk_size) left.length)) with
    | (_, some i) => Sum.inr i
    | (g, none) =>
      Sum.inl ({ c with
                  gear := g,
                  current_chunk_size := c.current_chunk_size +
                    min (c.avg_size - c.current_chunk_size) left.length },
               left.drop (min (c.avg_size - c.current_chunk_size) left.length))
  else Sum.inl (c, left)

/-- Phase 3 of `chunk_end` (src/fastcdc.rs:122-137): while below
`max_size`, search for an edge under `mask_long`. -/
def phase3 (G : Nat → Nat) (c : FastCDC) (left : List Nat) :
    (FastCDC × List Nat) ⊕ Nat :=
  if c.current_chunk_size < c.max_size then
    match findCE (gearRollByte G) (fun g => (g &&& c.mask_long) == 0)
        c.gear
        (left.take (min (c.max_size - c.current_chunk_size) left.length)) with
    | (_, some i) => Sum.inr i
    | (g, none) =>
      Sum.inl ({ c with
                  gear := g,
                  current_chunk_size := c.current_chunk_size +
                    min (c.max_size - c.current_chunk_size) left.length },
               left.drop (min (c.max_size - c.current_chunk_size) left.length))
  else Sum.inl (c, left)

/-- `<FastCDC as Chunker>::chunk_end` (src/fastcdc.rs:88-147).  A found
edge is reported at its absolute offset `i + (whole_buf.len() - left.len())`
and resets the chunker; if all three phases pass without a match and the
accumulated size has hit `max_size`, an unconditional boundary is emitted
at the bytes consumed so far; otherwise the buffer has been exhausted and
`none` is returned with the accumulated state kept. -/
def chunkEnd (G : Nat → Nat) (c : FastCDC) (whole_buf : List Nat) :
    FastCDC × Option Nat :=
  match phase2 G (phase1 G c whole_buf).1 (phase1 G c whole_buf).2 with
  | Sum.inr i =>
    (resetF (phase1 G c whole_buf).1,
     some (i + (whole_buf.length - (phase1 G c whole_buf).2.length)))
  | Sum.inl (c2, left2) =>
    match phase3 G c2 left2 with
    | Sum.inr i => (resetF c2, some (i + (whole_buf.length - left2.length)))
    | Sum.inl (c3, left3) =>
      if c3.max_size ≤ c3.current_chunk_size then
        (resetF c3, some (whole_buf.length - left3.length))
      else (c3, none)

/-- Whether `chunk_end` on this state and buffer would find a
content-defined match (one of the two in-phase searches succeeds), as
opposed to emitting the unconditional `max_size` boundary or nothing.
Defined by replaying the same phases. -/
def contentMatch (G : Nat → Nat) (c : FastCDC) (whole_buf : List Nat) : Bool :=
  match phase2 G (phase1 G c whole_buf).1 (phase1 G c whole_buf).2 with
  | Sum.inr _ => true
  | Sum.inl (c2, left2) =>
    match phase3 G c2 left2 with
    | Sum.inr _ => true
    | Sum.inl _ => false

end FastCDC

/-! ## `RollingHashChunker` (src/lib.rs:89-119)

`chunk_end` delegates to the engine's `find_chunk_edge_cond` with
predicate `digest & mask == Digest::default()` (i.e. `== 0`) and resets
the engine when a split was found.  Instantiated at the two engines
(Rust dispatches to Bup's override and Gear's trait default
respectively). -/

def rhChunkEndBup (W : Nat) (msk : Nat) (s : BupState) (buf : List Nat) :
    BupState × Option Nat :=
  match bupFindCE W (fun rh => (bupDigest rh &&& msk) == 0) s buf with
  | (_, some i) => (bupDefault W, some i)
  | (s', none) => (s', none)

def rhChunkEndGear (G : Nat → Nat) (msk : Nat) (d : Nat) (buf : List Nat) :
    Nat × Option Nat :=
  match findCE (gearRollByte G) (fun g => (g &&& msk) == 0) d buf with
  | (_, some i) => (gearNew, some i)
  | (d', none) => (d', none)

/-! ## Abstract (queue) view of the Bup engine

The circular buffer plus cursor represents a FIFO queue of the last `W`
bytes, oldest first.  `absOf` extracts that queue; the abstract step
`bupRollByteA` performs the same `add` arithmetic and dequeues/enqueues.
Observable behaviour (the digest, now and after any further bytes) is a
function of the abstract state. -/

structure BupA where
  s1 : Nat
  s2 : Nat
  queue : List Nat
  deriving Repr, DecidableEq

def bupAddA (W : Nat) (a : BupA) (drop addB : Nat) : BupA :=
  let s1 := a.s1 + addB - drop
  let s2 := a.s2 + s1 - W * (drop + CHAR_OFFSET)
  { a with s1 := s1, s2 := s2 }

def bupRollByteA (W : Nat) (a : BupA) (b : Nat) : BupA :=
  let a' := bupAddA W a (a.queue.headD 0) b
  { a' with queue := a.queue.tail ++ [b] }

def absOf (s : BupState) : BupA :=
  ⟨s.s1, s.s2, s.window.drop s.wofs ++ s.window.take s.wofs⟩

def bupDigestA (a : BupA) : Nat :=
  (a.s1 % 2 ^ 32) <<< 16 % 2 ^ 32 ||| (a.s2 % 2 ^ 32 &&& 0xffff)

/-- Well-formedness enforced by the Rust types: the window has the
static length `W` and the cursor is in bounds. -/
def BupWF (W : Nat) (s : BupState) : Prop :=
  s.wofs < W ∧ s.window.length = W

/-- Position-weighted sum `Σ_j (W - j) * queue[j]` starting at weight
index `j`; the oldest byte carries weight `W`. -/
def wsumFrom (W j : Nat) : List Nat → Nat
  | [] => 0
  | b :: rest => (W - j) * b + wsumFrom W (j + 1) rest

/-- The accumulator invariant of reachable Bup states:
`s1 = W*CHAR_OFFSET + Σ queue` and
`s2 = W*(W-1)*CHAR_OFFSET + Σ_j (W-j)*queue[j]`. -/
def InvA (W : Nat) (a : BupA) : Prop :=
  a.queue.length = W ∧
  a.s1 = W * CHAR_OFFSET + a.queue.sum ∧
  a.s2 = W * (W - 1) * CHAR_OFFSET + wsumFrom W 0 a.queue

instance (W : Nat) (s : BupState) : Decidable (BupWF W s) := by
  unfold BupWF; infer_instance

instance (W : Nat) (a : BupA) : Decidable (InvA W a) := by
  unfold InvA; infer_instance

/-! ## Safety-instrumented Bup operations

Each instrumented operation returns, besides the result of the plain
operation, a `Bool` that is `true` iff every `usize` subtraction inside
`add` had a nonnegative exact result and every window access was in
bounds — i.e. iff the run was free of underflow, wraparound and
out-of-bounds access. -/

def bupAddSafe (W : Nat) (s : BupState) (drop addB : Nat) : Bool :=
  decide (drop ≤ s.s1 + addB) &&
  decide (W * (drop + CHAR_OFFSET) ≤ s.s2 + (s.s1 + addB - drop))

def bupRollByteC (W : Nat) (s : BupState) (b : Nat) : BupState × Bool :=
  (bupRollByte W s b,
   decide (s.wofs < s.window.length) && bupAddSafe W s (s.window.getD s.wofs 0) b)

def bupRollListC (W : Nat) (s : BupState) (buf : List Nat) : BupState × Bool :=
  buf.foldl (fun p b => ((bupRollByteC W p.1 b).1, p.2 && (bupRollByteC W p.1 b).2))
    (s, true)

def bupRollC (W : Nat) (s : BupState) (buf : List Nat) : BupState × Bool :=
  bupRollListC W s
    (if buf.length < W then buf else buf.drop (buf.length - W))

def bupFindCEGoC (W : Nat) (cond : BupState → Bool) (i : Nat) (s : BupState) :
    List Nat → (BupState × Option Nat) × Bool
  | [] => ((s, none), true)
  | b :: rest =>
    let r := bupRollByteC W s b
    if cond r.1 then ((r.1, some (i + 1)), r.2)
    else
      let r2 := bupFindCEGoC W cond (i + 1) r.1 rest
      (r2.1, r.2 && r2.2)

def bupFastLoopC (W : Nat) (cond : BupState → Bool) (s : BupState)
    (pw : List Nat) (rest : List Nat) (consumed : Nat) :
    (BupState × Option Nat) × Bool :=
  match rest with
  | [] => (({ s with wofs := 0, window := pw }, none), true)
  | b :: rest' =>
    let drop := pw.headD 0
    let ok := bupAddSafe W s drop b
    let s' := bupAdd W s drop b
    let pw' := pw.tail ++ [b]
    if cond s' then (({ s' with wofs := 0, window := pw' }, some (consumed + 1)), ok)
    else
      let r := bupFastLoopC W cond s' pw' rest' (consumed + 1)
      (r.1, ok && r.2)

def bupFindCEC (W : Nat) (cond : BupState → Bool) (s : BupState)
    (buf : List Nat) : (BupState × Option Nat) × Bool :=
  match bupFindCEGoC W cond 0 s (buf.take W) with
  | ((s1, some i), ok) => ((s1, some i), ok)
  | ((s1, none), ok) =>
    if W < buf.length then
      let r := bupFastLoopC W cond s1 (buf.take W) (buf.drop W) W
      (r.1, ok && r.2)
    else ((s1, none), ok)

/-- The operations a client can perform on a `Bup` engine. -/
inductive BupOp where
  | rollByteOp (b : Nat)
  | rollOp (buf : List Nat)
  | findOp (buf : List Nat) (cond : BupState → Bool)
  | resetOp

def bupExecC (W : Nat) (s : BupState) : BupOp → BupState × Bool
  | .rollByteOp b => bupRollByteC W s b
  | .rollOp buf => bupRollC W s buf
  | .findOp buf cond =>
    let r := bupFindCEC W cond s buf
    (r.1.1, r.2)
  | .resetOp => (bupDefault W, true)

def bupExecListC (W : Nat) (s : BupState) : List BupOp → BupState × Bool
  | [] => (s, true)
  | op :: ops =>
    let r := bupExecC W s op
    let r2 := bupExecListC W r.1 ops
    (r2.1, r.2 && r2.2)

/-- Drive a `FastCDC` chunker through a sequence of `chunk_end` calls on
arbitrary buffer slices, tracking `acc`, the number of bytes consumed
since the last emitted boundary (a `some i` call consumes `i` bytes and
closes a chunk of length `acc + i`; a `none` call consumes the whole
slice into the pending chunk).  Returns the list of emitted chunk
lengths and the final pending (never-emitted) length. -/
def fastRunAcc (G : Nat → Nat) : FastCDC → Nat → List (List Nat) → List Nat × Nat
  | _, acc, [] => ([], acc)
  | c, acc, buf :: rest =>
    match FastCDC.chunkEnd G c buf with
    | (c', none) => fastRunAcc G c' (acc + buf.length) rest
    | (c', some i) =>
      let r := fastRunAcc G c' 0 rest
      ((acc + i) :: r.1, r.2)

end Rsroll

/-! # Theorems -/

namespace Rsroll

/-- **C5.** `FastCDC::new` (default exponent `chunk_bits = 13`) has
`min_size = 2^(13-2) = 2048`, `avg_size = 2^13 = 8192`,
`max_size = 2^(13+3) = 65536`, and carries the two published mask
constants verbatim: `mask_short = 0x0003590703530000` (tested in the
sub-average phase) and `mask_long = 0x0000d90003530000` (tested in the
above-average phase). -/
theorem c5_default_config :
    FastCDC.new.min_size = 2 ^ (13 - 2) ∧
    FastCDC.new.avg_size = 2 ^ 13 ∧
    FastCDC.new.max_size = 2 ^ (13 + 3) ∧
    FastCDC.new.min_size = 2048 ∧
    FastCDC.new.avg_size = 8192 ∧
    FastCDC.new.max_size = 65536 ∧
    FastCDC.new.mask_short = 0x0003590703530000 ∧
    FastCDC.new.mask_long = 0x0000d90003530000 := by
  decide

/-- **C8.** `count_bits(chunk_bits, digest)` equals `chunk_bits` plus the
number of consecutive low-order one-bits remaining after discarding the
matched prefix *and one extra bit* (`chunk_bits + trailing_ones((digest
>> chunk_bits) >> 1)`), and the golden values hold. -/
theorem c8_count_bits :
    (∀ chunk_bits digest : Nat,
      count_bits chunk_bits digest =
        chunk_bits + trailingOnes ((digest >>> chunk_bits) >>> 1)) ∧
    count_bits 1 0b001 = 1 ∧
    count_bits 1 0b011 = 1 ∧
    count_bits 1 0b101 = 2 ∧
    count_bits 1 0b111 = 2 ∧
    count_bits 1 0xFFFFFFFF = 31 ∧
    count_bits 5 0b0001011111 = 6 ∧
    count_bits 5 0b1011011111 = 7 := by
  refine ⟨fun cb d => ?_, by decide, by decide, by decide, by decide,
    by decide, by decide, by decide⟩
  simp [count_bits, Nat.add_comm]

/-! ### Gear arithmetic lemmas -/

theorem mod_mul_add_mod (a c d M : Nat) :
    (a % M * c + d) % M = (a * c + d) % M := by
  conv_lhs => rw [Nat.add_mod, Nat.mul_mod, Nat.mod_mod_of_dvd _ dvd_rfl]
  rw [← Nat.mul_mod, ← Nat.add_mod]

/-- One Gear step in normal form: `(d * 2 + G b) mod 2^64`. -/
theorem gearRollByte_eq (G : Nat → Nat) (d b : Nat) :
    gearRollByte G d b = (d * 2 + G b) % 2 ^ 64 := by
  unfold gearRollByte
  rw [Nat.shiftLeft_eq, pow_one, ← Nat.add_mod]

/-- A Gear step only sees its starting digest modulo `2^64`. -/
theorem gearRollByte_mod_left (G : Nat → Nat) (d b : Nat) :
    gearRollByte G (d % 2 ^ 64) b = gearRollByte G d b := by
  rw [gearRollByte_eq, gearRollByte_eq, mod_mul_add_mod]

theorem add_mod_right_mod (x y M : Nat) : (x + y % M) % M = (x + y) % M := by
  rw [Nat.add_mod, Nat.mod_mod_of_dvd _ dvd_rfl, ← Nat.add_mod]

/-- Closed form of a Gear run: the starting digest is shifted left once
per byte, so it only survives as `s * 2^n mod 2^64`. -/
theorem gear_rollList_shift (G : Nat → Nat) :
    ∀ (xs : List Nat) (s : Nat), s < 2 ^ 64 →
      rollList (gearRollByte G) s xs =
        (s * 2 ^ xs.length + rollList (gearRollByte G) 0 xs) % 2 ^ 64 := by
  intro xs
  induction xs with
  | nil =>
    intro s hs
    simp only [rollList, List.foldl_nil, List.length_nil, pow_zero, mul_one,
      Nat.add_zero]
    exact (Nat.mod_eq_of_lt hs).symm
  | cons b xs ih =>
    intro s hs
    have h2 : (0 : Nat) < 2 ^ 64 := by positivity
    have hblt : ∀ t c : Nat, gearRollByte G t c < 2 ^ 64 := by
      intro t c; rw [gearRollByte_eq]; exact Nat.mod_lt _ h2
    have h0 : rollList (gearRollByte G) 0 (b :: xs) =
        (G b * 2 ^ xs.length + rollList (gearRollByte G) 0 xs) % 2 ^ 64 := by
      have hh : rollList (gearRollByte G) 0 (b :: xs) =
          rollList (gearRollByte G) (gearRollByte G 0 b) xs := rfl
      rw [hh, ih _ (hblt 0 b), gearRollByte_eq, Nat.zero_mul, Nat.zero_add,
        mod_mul_add_mod]
    calc rollList (gearRollByte G) s (b :: xs)
        = rollList (gearRollByte G) (gearRollByte G s b) xs := rfl
      _ = (gearRollByte G s b * 2 ^ xs.length +
            rollList (gearRollByte G) 0 xs) % 2 ^ 64 := ih _ (hblt s b)
      _ = ((s * 2 + G b) * 2 ^ xs.length +
            rollList (gearRollByte G) 0 xs) % 2 ^ 64 := by
          rw [gearRollByte_eq, mod_mul_add_mod]
      _ = (s * 2 ^ (b :: xs).length +
            (G b * 2 ^ xs.length + rollList (gearRollByte G) 0 xs)) % 2 ^ 64 := by
          congr 1
          simp only [List.length_cons, pow_succ]
          ring
      _ = (s * 2 ^ (b :: xs).length +
            rollList (gearRollByte G) 0 (b :: xs)) % 2 ^ 64 := by
          rw [h0, add_mod_right_mod]

/-- A run of at least 64 bytes forgets the starting digest entirely. -/
theorem gear_rollList_wash (G : Nat → Nat) (xs : List Nat) (s : Nat)
    (h : 64 ≤ xs.length) :
    rollList (gearRollByte G) s xs = rollList (gearRollByte G) 0 xs := by
  have h2 : (0 : Nat) < 2 ^ 64 := by positivity
  have hs' : rollList (gearRollByte G) s xs =
      rollList (gearRollByte G) (s % 2 ^ 64) xs := by
    cases xs with
    | nil => simp at h
    | cons b t =>
      show rollList (gearRollByte G) (gearRollByte G s b) t =
        rollList (gearRollByte G) (gearRollByte G (s % 2 ^ 64) b) t
      rw [gearRollByte_mod_left]
  obtain ⟨k, hk⟩ := Nat.exists_eq_add_of_le h
  have hz : ∀ a : Nat, a * 2 ^ xs.length % 2 ^ 64 = 0 := by
    intro a
    rw [hk, pow_add]
    have : a * (2 ^ 64 * 2 ^ k) = 2 ^ 64 * (a * 2 ^ k) := by ring
    rw [this]
    exact Nat.mul_mod_right _ _
  rw [hs', gear_rollList_shift G xs _ (Nat.mod_lt _ h2),
    gear_rollList_shift G xs 0 h2]
  rw [Nat.add_mod, hz, Nat.zero_add, Nat.mod_mod_of_dvd _ dvd_rfl,
    Nat.add_mod, hz, Nat.zero_add, Nat.mod_mod_of_dvd _ dvd_rfl]

/-! ### Generic rolling lemmas -/

theorem rollList_append {σ : Type} (rollB : σ → Nat → σ) (s : σ)
    (xs ys : List Nat) :
    rollList rollB s (xs ++ ys) = rollList rollB (rollList rollB s xs) ys :=
  List.foldl_append _ _ _ _

theorem rollList_cons {σ : Type} (rollB : σ → Nat → σ) (s : σ) (b : Nat)
    (xs : List Nat) :
    rollList rollB s (b :: xs) = rollList rollB (rollB s b) xs := rfl

/-! ### Bup: the concrete engine refines the queue abstraction -/

/-- The byte read out by `roll_byte` is the head of the abstract queue. -/
theorem bup_head_queue (s : BupState) (h : s.wofs < s.window.length) :
    (absOf s).queue.headD 0 = s.window.getD s.wofs 0 := by
  unfold absOf
  rw [List.drop_eq_getElem_cons h, List.cons_append, List.headD_cons,
    List.getD_eq_getElem?_getD, List.getElem?_eq_getElem h]
  rfl

/-- One concrete `roll_byte` step commutes with the queue abstraction and
preserves well-formedness. -/
theorem absOf_rollByte (W : Nat) (s : BupState) (b : Nat) (hW : BupWF W s) :
    absOf (bupRollByte W s b) = bupRollByteA W (absOf s) b ∧
    BupWF W (bupRollByte W s b) := by
  obtain ⟨hofs, hlen⟩ := hW
  have hofs' : s.wofs < s.window.length := by omega
  have hWpos : 0 < W := by omega
  constructor
  · have hdrop : (absOf s).queue.headD 0 = s.window.getD s.wofs 0 :=
      bup_head_queue s hofs'
    unfold absOf bupRollByte bupRollByteA bupAddA bupAdd
    simp only [← hdrop]
    congr 1
    -- remaining: the new circular-buffer contents read as the dequeued,
    -- enqueued queue
    have htake : (s.window.set s.wofs b).take s.wofs = s.window.take s.wofs := by
      rw [List.set_take, List.set_eq_of_length_le (by rw [List.length_take]; omega)]
    rcases Nat.lt_or_ge (s.wofs + 1) W with h1 | h1
    · have hmod : (s.wofs + 1) % W = s.wofs + 1 := Nat.mod_eq_of_lt h1
      rw [hmod]
      have hd : (s.window.set s.wofs b).drop (s.wofs + 1) =
          s.window.drop (s.wofs + 1) := by
        rw [List.drop_set, if_pos (by omega)]
      have ht : (s.window.set s.wofs b).take (s.wofs + 1) =
          s.window.take s.wofs ++ [b] := by
        rw [List.take_succ, htake]
        have : (s.window.set s.wofs b)[s.wofs]? = some b :=
          List.getElem?_set_self hofs'
        rw [this]
        rfl
      rw [hd, ht, List.drop_eq_getElem_cons hofs', List.cons_append,
        List.tail_cons, List.append_assoc]
    · have hofsW : s.wofs + 1 = W := by omega
      have hmod : (s.wofs + 1) % W = 0 := by rw [hofsW]; exact Nat.mod_self W
      rw [hmod]
      simp only [List.drop_zero, List.take_zero, List.append_nil]
      have hset : s.window.set s.wofs b = s.window.take s.wofs ++ [b] := by
        conv_lhs => rw [← List.take_append_drop s.wofs (s.window.set s.wofs b)]
        rw [htake]
        congr 1
        have : (s.window.set s.wofs b).drop s.wofs =
            (s.window.drop s.wofs).set 0 b := by
          rw [List.drop_set, if_neg (by omega), Nat.sub_self]
        rw [this, List.drop_eq_getElem_cons hofs']
        have : s.window.drop (s.wofs + 1) = [] :=
          List.drop_eq_nil_of_le (by omega)
        rw [this]
        rfl
      rw [hset]
      show _ = ((s.window.drop s.wofs ++ s.window.take s.wofs).tail) ++ [b]
      rw [List.drop_eq_getElem_cons hofs']
      have : s.window.drop (s.wofs + 1) = [] :=
        List.drop_eq_nil_of_le (by omega)
      rw [this]
      rfl
  · exact ⟨Nat.mod_lt _ hWpos, by simp [bupRollByte, hlen]⟩

/-- Fold of `absOf_rollByte` over a byte list. -/
theorem absOf_rollList (W : Nat) :
    ∀ (xs : List Nat) (s : BupState), BupWF W s →
      absOf (rollList (bupRollByte W) s xs) =
        rollList (bupRollByteA W) (absOf s) xs ∧
      BupWF W (rollList (bupRollByte W) s xs) := by
  intro xs
  induction xs with
  | nil => exact fun s hs => ⟨rfl, hs⟩
  | cons b xs ih =>
    intro s hs
    obtain ⟨hc, hwf⟩ := absOf_rollByte W s b hs
    rw [rollList_cons, rollList_cons, ← hc]
    exact ih _ hwf

/-- After rolling `xs`, the abstract queue is the last `W` bytes of
`queue ++ xs`. -/
theorem queueA_rollList (W : Nat) (hW : 0 < W) :
    ∀ (xs : List Nat) (a : BupA), a.queue.length = W →
      (rollList (bupRollByteA W) a xs).queue = (a.queue ++ xs).drop xs.length := by
  intro xs
  induction xs with
  | nil => intro a _; simp [rollList]
  | cons b xs ih =>
    intro a hlen
    rw [rollList_cons]
    have hlen' : (bupRollByteA W a b).queue.length = W := by
      unfold bupRollByteA bupAddA
      cases hq : a.queue with
      | nil => rw [hq] at hlen; simp at hlen; omega
      | cons q0 qt =>
        simp only [List.tail_cons, List.length_append, List.length_cons]
        rw [hq] at hlen
        simp at hlen
        simp
        omega
    rw [ih _ hlen']
    cases hq : a.queue with
    | nil => rw [hq] at hlen; simp at hlen; omega
    | cons q0 qt =>
      unfold bupRollByteA bupAddA
      simp only [hq, List.tail_cons, List.length_cons]
      rw [List.append_assoc]
      simp only [List.cons_append, List.nil_append]
      rw [List.drop_succ_cons]

/-! ### Bup: the accumulator invariant -/

theorem wsumFrom_shift (W : Nat) :
    ∀ (l : List Nat) (j : Nat), j + l.length ≤ W →
      wsumFrom W j l = wsumFrom W (j + 1) l + l.sum := by
  intro l
  induction l with
  | nil => intro j _; simp [wsumFrom]
  | cons b t ih =>
    intro j hj
    simp only [List.length_cons] at hj
    have hjW : j < W := by omega
    unfold wsumFrom
    rw [ih (j + 1) (by omega)]
    have hW : W - j = (W - (j + 1)) + 1 := by omega
    rw [hW, List.sum_cons]
    ring

theorem wsumFrom_append_single (W : Nat) :
    ∀ (l : List Nat) (j b : Nat),
      wsumFrom W j (l ++ [b]) = wsumFrom W j l + (W - (j + l.length)) * b := by
  intro l
  induction l with
  | nil => intro j b; simp [wsumFrom]
  | cons c t ih =>
    intro j b
    simp only [List.cons_append]
    unfold wsumFrom
    rw [ih (j + 1) b, List.length_cons]
    have : j + 1 + t.length = j + (t.length + 1) := by omega
    rw [this]
    ring

/-- One abstract step preserves the accumulator invariant, and both
`usize` subtractions inside `add` are exact (no underflow): the dropped
byte is at most `s1 + add`, and `W*(drop + CHAR_OFFSET)` is at most
`s2 + s1'`. -/
theorem InvA_step (W : Nat) (a : BupA) (b : Nat) (hW : 0 < W)
    (h : InvA W a) :
    InvA W (bupRollByteA W a b) ∧
    a.queue.headD 0 ≤ a.s1 + b ∧
    W * (a.queue.headD 0 + CHAR_OFFSET) ≤
      a.s2 + (a.s1 + b - a.queue.headD 0) := by
  obtain ⟨hlen, hs1, hs2⟩ := h
  cases hq : a.queue with
  | nil => rw [hq] at hlen; simp at hlen; omega
  | cons q0 qt =>
    rw [hq] at hlen hs1 hs2
    simp only [List.length_cons] at hlen
    have hqt : qt.length = W - 1 := by omega
    rw [List.sum_cons] at hs1
    unfold wsumFrom at hs2
    rw [Nat.sub_zero] at hs2
    simp only [Nat.zero_add] at hs2
    have hw0 : wsumFrom W 0 qt = wsumFrom W 1 qt + qt.sum :=
      wsumFrom_shift W qt 0 (by omega)
    have hWq : W - qt.length = 1 := by omega
    have happ := wsumFrom_append_single W qt 0 b
    rw [Nat.zero_add, hWq, one_mul] at happ
    have hsafe1 : q0 ≤ a.s1 + b := by omega
    have hexp : W * (q0 + CHAR_OFFSET) = W * q0 + W * CHAR_OFFSET := by ring
    have hsafe2 : W * (q0 + CHAR_OFFSET) ≤ a.s2 + (a.s1 + b - q0) := by
      rw [hexp]; omega
    refine ⟨⟨?_, ?_, ?_⟩, by simpa using hsafe1, by simpa using hsafe2⟩
    · unfold bupRollByteA bupAddA
      rw [hq]
      simp only [List.tail_cons, List.length_append, List.length_cons,
        List.length_nil]
      omega
    · unfold bupRollByteA bupAddA
      rw [hq]
      simp only [List.headD_cons, List.tail_cons, List.sum_append,
        List.sum_cons, List.sum_nil]
      omega
    · unfold bupRollByteA bupAddA
      rw [hq]
      simp only [List.headD_cons, List.tail_cons]
      rw [happ, hw0, hexp]
      omega

/-- The invariant is preserved by any abstract run. -/
theorem InvA_rollList (W : Nat) (hW : 0 < W) :
    ∀ (xs : List Nat) (a : BupA), InvA W a →
      InvA W (rollList (bupRollByteA W) a xs) := by
  intro xs
  induction xs with
  | nil => exact fun a h => h
  | cons b xs ih =>
    intro a h
    rw [rollList_cons]
    exact ih _ (InvA_step W a b hW h).1

/-- The freshly constructed engine satisfies the invariant. -/
theorem InvA_default (W : Nat) : InvA W (absOf (bupDefault W)) := by
  refine ⟨by simp [absOf, bupDefault], by simp [absOf, bupDefault], ?_⟩
  show W * (W - 1) * CHAR_OFFSET =
    W * (W - 1) * CHAR_OFFSET + wsumFrom W 0 ((List.replicate W 0).drop 0 ++ (List.replicate W 0).take 0)
  have hz : ∀ (l : List Nat), (∀ x ∈ l, x = 0) → ∀ j, wsumFrom W j l = 0 := by
    intro l
    induction l with
    | nil => intro _ j; simp [wsumFrom]
    | cons c t ih =>
      intro hmem j
      unfold wsumFrom
      rw [hmem c (by simp), ih (fun x hx => hmem x (by simp [hx])) (j + 1)]
      simp
  rw [hz _ (by intro x hx; simp at hx; exact hx.2) 0]
  omega

/-- The freshly constructed engine is well-formed. -/
theorem BupWF_default (W : Nat) (hW : 0 < W) : BupWF W (bupDefault W) := by
  exact ⟨by simpa [bupDefault] using hW, by simp [bupDefault]⟩

/-- Two invariant-satisfying abstract states agree after rolling the same
`W` or more bytes: `s1`, `s2` (hence the digest) are the closed forms in
the final queue, which is the last `W` bytes rolled. -/
theorem bupA_locality (W : Nat) (hW : 0 < W) (a a' : BupA)
    (h : InvA W a) (h' : InvA W a') (xs : List Nat) (hx : W ≤ xs.length) :
    rollList (bupRollByteA W) a xs = rollList (bupRollByteA W) a' xs := by
  have r1 := InvA_rollList W hW xs a h
  have r2 := InvA_rollList W hW xs a' h'
  have q1 := queueA_rollList W hW xs a h.1
  have q2 := queueA_rollList W hW xs a' h'.1
  have hq1 : a.queue.length = W := h.1
  have hq2 : a'.queue.length = W := h'.1
  have hqeq : (rollList (bupRollByteA W) a xs).queue =
      (rollList (bupRollByteA W) a' xs).queue := by
    rw [q1, q2, List.drop_append_eq_append_drop,
      List.drop_append_eq_append_drop,
      List.drop_eq_nil_of_le (by omega : a.queue.length ≤ xs.length),
      List.drop_eq_nil_of_le (by omega : a'.queue.length ≤ xs.length),
      hq1, hq2]
  obtain ⟨l1, s11, s21⟩ := r1
  obtain ⟨l2, s12, s22⟩ := r2
  have e1 : (rollList (bupRollByteA W) a xs).s1 =
      (rollList (bupRollByteA W) a' xs).s1 := by
    rw [s11, s12, hqeq]
  have e2 : (rollList (bupRollByteA W) a xs).s2 =
      (rollList (bupRollByteA W) a' xs).s2 := by
    rw [s21, s22, hqeq]
  cases hL : rollList (bupRollByteA W) a xs with
  | mk u1 u2 uq =>
    cases hR : rollList (bupRollByteA W) a' xs with
    | mk v1 v2 vq =>
      rw [hL, hR] at e1 e2 hqeq
      simp only at e1 e2 hqeq
      simp [e1, e2, hqeq]

/-- States with the same abstract view are observably identical: they
yield the same digest after any further byte sequence. -/
theorem bup_observable_eq (W : Nat) (t t' : BupState) (h : absOf t = absOf t')
    (hw : BupWF W t) (hw' : BupWF W t') (future : List Nat) :
    bupDigest (rollList (bupRollByte W) t future) =
      bupDigest (rollList (bupRollByte W) t' future) := by
  have r := absOf_rollList W future t hw
  have r' := absOf_rollList W future t' hw'
  have h1 : bupDigest (rollList (bupRollByte W) t future) =
      bupDigestA (absOf (rollList (bupRollByte W) t future)) := rfl
  have h2 : bupDigest (rollList (bupRollByte W) t' future) =
      bupDigestA (absOf (rollList (bupRollByte W) t' future)) := rfl
  rw [h1, h2, r.1, r'.1, h]

/-- **C7.** Implicit 64-byte window of the Gear engine: freshly
constructed engines fed two byte sequences, each of length at least 64
and sharing the same final 64 bytes, end with equal digests — after 64
`roll_byte` shifts the influence of older bytes is gone modulo `2^64`. -/
theorem c7_gear_implicit_window (G : Nat → Nat) (buf1 buf2 : List Nat)
    (h1 : 64 ≤ buf1.length) (h2 : 64 ≤ buf2.length)
    (hsuf : buf1.drop (buf1.length - 64) = buf2.drop (buf2.length - 64)) :
    rollList (gearRollByte G) gearNew buf1 =
      rollList (gearRollByte G) gearNew buf2 := by
  have l1 : (buf1.drop (buf1.length - 64)).length = 64 := by
    rw [List.length_drop]; omega
  have l2 : (buf2.drop (buf2.length - 64)).length = 64 := by
    rw [List.length_drop]; omega
  calc rollList (gearRollByte G) gearNew buf1
      = rollList (gearRollByte G)
          (rollList (gearRollByte G) gearNew (buf1.take (buf1.length - 64)))
          (buf1.drop (buf1.length - 64)) := by
        rw [← rollList_append, List.take_append_drop]
    _ = rollList (gearRollByte G) 0 (buf1.drop (buf1.length - 64)) :=
        gear_rollList_wash G _ _ (by omega)
    _ = rollList (gearRollByte G) 0 (buf2.drop (buf2.length - 64)) := by
        rw [hsuf]
    _ = rollList (gearRollByte G)
          (rollList (gearRollByte G) gearNew (buf2.take (buf2.length - 64)))
          (buf2.drop (buf2.length - 64)) :=
        (gear_rollList_wash G _ _ (by omega)).symm
    _ = rollList (gearRollByte G) gearNew buf2 := by
        rw [← rollList_append, List.take_append_drop]

/-- Witness for C7 at a concrete input: `buf1 = replicate 64 1`,
`buf2 = 7 :: replicate 64 1` share their final 64 bytes. -/
theorem c7_gear_implicit_window_witness :
    (64 ≤ (List.replicate 64 1).length ∧
     64 ≤ (7 :: List.replicate 64 1 : List Nat).length ∧
     (List.replicate 64 1 : List Nat).drop ((List.replicate 64 1 : List Nat).length - 64) =
       (7 :: List.replicate 64 1 : List Nat).drop
         ((7 :: List.replicate 64 1 : List Nat).length - 64)) ∧
    rollList (gearRollByte gTrivial) gearNew (List.replicate 64 1) =
      rollList (gearRollByte gTrivial) gearNew (7 :: List.replicate 64 1) :=
  ⟨⟨by decide, by decide, by decide⟩,
    c7_gear_implicit_window gTrivial _ _ (by decide) (by decide) (by decide)⟩

/-- **C6.** Window locality of the Bup engine: if the suffix `buf[k..]`
is longer than the window `W = 64`, a fresh engine fed all of `buf`
byte-by-byte ends with the same digest as a fresh engine fed only
`buf[k..]`: the digest is a pure function of the last `W` bytes fed. -/
theorem c6_bup_window_locality (buf : List Nat) (k : Nat)
    (h : bupDefaultWindowSize < (buf.drop k).length) :
    bupDigest (rollList (bupRollByte bupDefaultWindowSize)
        (bupDefault bupDefaultWindowSize) buf) =
      bupDigest (rollList (bupRollByte bupDefaultWindowSize)
        (bupDefault bupDefaultWindowSize) (buf.drop k)) := by
  have hW : 0 < bupDefaultWindowSize := by decide
  have hwf := BupWF_default bupDefaultWindowSize hW
  have ha0 := InvA_default bupDefaultWindowSize
  have r1 := absOf_rollList bupDefaultWindowSize buf
    (bupDefault bupDefaultWindowSize) hwf
  have r2 := absOf_rollList bupDefaultWindowSize (buf.drop k)
    (bupDefault bupDefaultWindowSize) hwf
  have hd1 : bupDigest (rollList (bupRollByte bupDefaultWindowSize)
      (bupDefault bupDefaultWindowSize) buf) =
      bupDigestA (absOf (rollList (bupRollByte bupDefaultWindowSize)
        (bupDefault bupDefaultWindowSize) buf)) := rfl
  have hd2 : bupDigest (rollList (bupRollByte bupDefaultWindowSize)
      (bupDefault bupDefaultWindowSize) (buf.drop k)) =
      bupDigestA (absOf (rollList (bupRollByte bupDefaultWindowSize)
        (bupDefault bupDefaultWindowSize) (buf.drop k))) := rfl
  rw [hd1, hd2, r1.1, r2.1]
  conv_lhs => rw [← List.take_append_drop k buf, rollList_append]
  rw [bupA_locality bupDefaultWindowSize hW _ _
    (InvA_rollList bupDefaultWindowSize hW _ _ ha0) ha0 (buf.drop k)
    (by omega)]

/-- Witness for C6 at a concrete input: `buf = replicate 66 1`, `k = 1`. -/
theorem c6_bup_window_locality_witness :
    bupDefaultWindowSize < ((List.replicate 66 1 : List Nat).drop 1).length ∧
    bupDigest (rollList (bupRollByte bupDefaultWindowSize)
        (bupDefault bupDefaultWindowSize) (List.replicate 66 1)) =
      bupDigest (rollList (bupRollByte bupDefaultWindowSize)
        (bupDefault bupDefaultWindowSize) ((List.replicate 66 1).drop 1)) :=
  ⟨by decide, c6_bup_window_locality (List.replicate 66 1) 1 (by decide)⟩

/-- Gear's windowed `roll` override agrees with the byte-by-byte default
on the nose (the state is just the digest). -/
theorem gearRoll_eq_rollList (G : Nat → Nat) (d : Nat) (buf : List Nat) :
    gearRoll G d buf = rollList (gearRollByte G) d buf := by
  unfold gearRoll rollWindowed
  by_cases hlen : buf.length < gearWindowSize
  · simp [hlen]
  · rw [if_neg hlen]
    push_neg at hlen
    have h64 : gearWindowSize = 64 := rfl
    rw [h64] at hlen ⊢
    have hdlen : (buf.drop (buf.length - 64)).length = 64 := by
      rw [List.length_drop]; omega
    conv_rhs => rw [← List.take_append_drop (buf.length - 64) buf,
      rollList_append]
    have w1 : rollList (gearRollByte G) d (buf.drop (buf.length - 64)) =
        rollList (gearRollByte G) 0 (buf.drop (buf.length - 64)) :=
      gear_rollList_wash G _ d (by omega)
    have w2 : rollList (gearRollByte G)
        (rollList (gearRollByte G) d (buf.take (buf.length - 64)))
        (buf.drop (buf.length - 64)) =
        rollList (gearRollByte G) 0 (buf.drop (buf.length - 64)) :=
      gear_rollList_wash G _ _ (by omega)
    rw [w1, w2]

/-- Bup's windowed `roll` override is observably equivalent to the
byte-by-byte default from any invariant-satisfying (i.e. reachable)
state: the abstract states agree, hence so do all present and future
digests. -/
theorem bupRoll_abs_eq (W : Nat) (s : BupState) (buf : List Nat)
    (hW : 0 < W) (hwf : BupWF W s) (hinv : InvA W (absOf s)) :
    absOf (bupRoll W s buf) = absOf (rollList (bupRollByte W) s buf) := by
  unfold bupRoll rollWindowed
  by_cases hlen : buf.length < W
  · simp [hlen]
  · rw [if_neg hlen]
    push_neg at hlen
    have hdlen : (buf.drop (buf.length - W)).length = W := by
      rw [List.length_drop]; omega
    rw [(absOf_rollList W _ s hwf).1, (absOf_rollList W buf s hwf).1]
    conv_rhs => rw [← List.take_append_drop (buf.length - W) buf,
      rollList_append]
    exact bupA_locality W hW _ _ hinv
      (InvA_rollList W hW _ _ hinv) (buf.drop (buf.length - W)) (by omega)

/-- **C4.** For both engines, `roll(buf)` — overridden through the
windowed helper that feeds only the last window of bytes when the buffer
is at least a window long — is externally indistinguishable from calling
`roll_byte` on every byte of `buf` in order: the digest is identical,
and so is every digest observed after any further bytes.  (For Gear the
states are equal outright; for Bup this holds from any reachable state,
i.e. one that is well-formed and satisfies the accumulator invariant.) -/
theorem c4_roll_windowed_equiv :
    (∀ (G : Nat → Nat) (d : Nat) (buf : List Nat),
      gearRoll G d buf = rollList (gearRollByte G) d buf) ∧
    (∀ (W : Nat) (s : BupState) (buf : List Nat), 0 < W → BupWF W s →
      InvA W (absOf s) →
      bupDigest (bupRoll W s buf) =
        bupDigest (rollList (bupRollByte W) s buf) ∧
      ∀ future : List Nat,
        bupDigest (rollList (bupRollByte W) (bupRoll W s buf) future) =
          bupDigest (rollList (bupRollByte W)
            (rollList (bupRollByte W) s buf) future)) := by
  refine ⟨gearRoll_eq_rollList, fun W s buf hW hwf hinv => ?_⟩
  have habs := bupRoll_abs_eq W s buf hW hwf hinv
  have hwfRoll : BupWF W (bupRoll W s buf) := by
    unfold bupRoll rollWindowed
    by_cases hlen : buf.length < W
    · simp only [if_pos hlen]
      exact (absOf_rollList W buf s hwf).2
    · simp only [if_neg hlen]
      exact (absOf_rollList W _ s hwf).2
  have hwfAll : BupWF W (rollList (bupRollByte W) s buf) :=
    (absOf_rollList W buf s hwf).2
  constructor
  · have h1 : bupDigest (bupRoll W s buf) =
        bupDigestA (absOf (bupRoll W s buf)) := rfl
    have h2 : bupDigest (rollList (bupRollByte W) s buf) =
        bupDigestA (absOf (rollList (bupRollByte W) s buf)) := rfl
    rw [h1, h2, habs]
  · exact fun future => bup_observable_eq W _ _ habs hwfRoll hwfAll future

/-- Witness for C4's Bup side at a concrete input: the default engine,
a 65-byte buffer (one byte longer than the window) and one further byte. -/
theorem c4_roll_windowed_equiv_witness :
    (0 < 64 ∧ BupWF 64 (bupDefault 64) ∧ InvA 64 (absOf (bupDefault 64))) ∧
    bupDigest (bupRoll 64 (bupDefault 64) (List.replicate 65 2)) =
      bupDigest (rollList (bupRollByte 64) (bupDefault 64)
        (List.replicate 65 2)) ∧
    bupDigest (rollList (bupRollByte 64)
        (bupRoll 64 (bupDefault 64) (List.replicate 65 2)) [3]) =
      bupDigest (rollList (bupRollByte 64)
        (rollList (bupRollByte 64) (bupDefault 64) (List.replicate 65 2)) [3]) := by
  refine ⟨⟨by decide, by decide, by decide⟩, ?_⟩
  have h := c4_roll_windowed_equiv.2 64 (bupDefault 64) (List.replicate 65 2)
    (by decide) (by decide) (by decide)
  exact ⟨h.1, h.2 [3]⟩

/-! ### `find_chunk_edge_cond`: generic characterisation -/

/-- If the default search loop stops with `some r`, then `r` 1-indexes
the consumed bytes (`i` bytes were already consumed before this slice),
the final state is exactly the start state rolled over the consumed
prefix, and the predicate held there. -/
theorem findCEGo_some {σ : Type} (rollB : σ → Nat → σ) (cond : σ → Bool) :
    ∀ (buf : List Nat) (i : Nat) (s s' : σ) (r : Nat),
      findCEGo rollB cond i s buf = (s', some r) →
      i + 1 ≤ r ∧ r ≤ i + buf.length ∧
      s' = rollList rollB s (buf.take (r - i)) ∧ cond s' = true := by
  intro buf
  induction buf with
  | nil => intro i s s' r h; simp [findCEGo] at h
  | cons b rest ih =>
    intro i s s' r h
    unfold findCEGo at h
    by_cases hc : cond (rollB s b)
    · rw [if_pos hc] at h
      injection h with h1 h2
      injection h2 with h2
      subst h1
      refine ⟨by omega, by simp [← h2], ?_, hc⟩
      have : r - i = 1 := by omega
      rw [this]
      rfl
    · rw [if_neg hc] at h
      obtain ⟨hr1, hr2, hs, hcond⟩ := ih (i + 1) (rollB s b) s' r h
      refine ⟨by omega, by simp only [List.length_cons]; omega, ?_, hcond⟩
      have hri : r - i = (r - (i + 1)) + 1 := by omega
      rw [hri, List.take_succ_cons, rollList_cons, hs]

/-- If the default search loop exhausts the buffer, the final state is
the start state rolled over the whole buffer. -/
theorem findCEGo_none {σ : Type} (rollB : σ → Nat → σ) (cond : σ → Bool) :
    ∀ (buf : List Nat) (i : Nat) (s s' : σ),
      findCEGo rollB cond i s buf = (s', none) →
      s' = rollList rollB s buf := by
  intro buf
  induction buf with
  | nil =>
    intro i s s' h
    unfold findCEGo at h
    injection h with h1 _
    exact h1.symm
  | cons b rest ih =>
    intro i s s' h
    unfold findCEGo at h
    by_cases hc : cond (rollB s b)
    · rw [if_pos hc] at h
      injection h with _ h2
      cases h2
    · rw [if_neg hc] at h
      exact ih (i + 1) (rollB s b) s' h

/-- Splitting the default search loop across a concatenation. -/
theorem findCEGo_append {σ : Type} (rollB : σ → Nat → σ) (cond : σ → Bool) :
    ∀ (xs ys : List Nat) (i : Nat) (s : σ),
      findCEGo rollB cond i s (xs ++ ys) =
        match findCEGo rollB cond i s xs with
        | (s', some r) => (s', some r)
        | (s', none) => findCEGo rollB cond (i + xs.length) s' ys := by
  have step : ∀ (i : Nat) (s : σ) (c : Nat) (l : List Nat),
      findCEGo rollB cond i s (c :: l) =
        if cond (rollB s c) then (rollB s c, some (i + 1))
        else findCEGo rollB cond (i + 1) (rollB s c) l := fun _ _ _ _ => rfl
  intro xs
  induction xs with
  | nil => intro ys i s; simp [findCEGo]
  | cons b rest ih =>
    intro ys i s
    simp only [List.cons_append]
    rw [step i s b (rest ++ ys), step i s b rest]
    by_cases hc : cond (rollB s b)
    · rw [if_pos hc, if_pos hc]
    · rw [if_neg hc, if_neg hc, ih ys (i + 1) (rollB s b)]
      simp only [List.length_cons]
      have hidx : i + 1 + rest.length = i + (rest.length + 1) := by omega
      rw [hidx]

/-- The abstract queue always has the window's length. -/
theorem absOf_queue_length (s : BupState) :
    (absOf s).queue.length = s.window.length := by
  simp [absOf]
  omega

/-! ### Bup's fused fast path vs. the byte-by-byte default -/

/-- Parallel simulation of the fused fast loop (state `s` with stale
window, live window contents `pw`) against the byte-by-byte default loop
(live state `t`), for a predicate that reads only the digest: both stop
at the same offset (or both exhaust the buffer), and the final states
are abstractly — hence observably — equal. -/
theorem bupFastLoop_parallel (W : Nat) (hW : 0 < W) (p : Nat → Bool) :
    ∀ (rest pw : List Nat) (s t : BupState) (k : Nat),
      BupWF W t → pw.length = W →
      s.s1 = t.s1 → s.s2 = t.s2 → (absOf t).queue = pw →
      (bupFastLoop W (fun st => p (bupDigest st)) s pw rest k).2 =
        (findCEGo (bupRollByte W) (fun st => p (bupDigest st)) k t rest).2 ∧
      absOf (bupFastLoop W (fun st => p (bupDigest st)) s pw rest k).1 =
        absOf (findCEGo (bupRollByte W) (fun st => p (bupDigest st)) k t rest).1 ∧
      BupWF W (bupFastLoop W (fun st => p (bupDigest st)) s pw rest k).1 ∧
      BupWF W (findCEGo (bupRollByte W) (fun st => p (bupDigest st)) k t rest).1 := by
  intro rest
  induction rest with
  | nil =>
    intro pw s t k hwt hpw h1 h2 hq
    have habs : absOf { s with wofs := 0, window := pw } = absOf t := by
      have habst : absOf t = ⟨t.s1, t.s2, (absOf t).queue⟩ := rfl
      rw [habst, hq, ← h1, ← h2]
      simp [absOf]
    exact ⟨rfl, habs, ⟨hW, hpw⟩, hwt⟩
  | cons b rest' ih =>
    intro pw s t k hwt hpw h1 h2 hq
    have hofslen : t.wofs < t.window.length := by
      obtain ⟨ho, hl⟩ := hwt; omega
    have hdrop : pw.headD 0 = t.window.getD t.wofs 0 := by
      rw [← hq, bup_head_queue t hofslen]
    have hs1' : (bupAdd W s (pw.headD 0) b).s1 = (bupRollByte W t b).s1 := by
      unfold bupRollByte bupAdd
      simp only
      rw [h1, hdrop]
    have hs2' : (bupAdd W s (pw.headD 0) b).s2 = (bupRollByte W t b).s2 := by
      unfold bupRollByte bupAdd
      simp only
      rw [h1, h2, hdrop]
    have hdig : bupDigest (bupAdd W s (pw.headD 0) b) =
        bupDigest (bupRollByte W t b) := by
      unfold bupDigest
      rw [hs1', hs2']
    have hcomm := absOf_rollByte W t b hwt
    have hq' : (absOf (bupRollByte W t b)).queue = pw.tail ++ [b] := by
      rw [hcomm.1]
      show ((absOf t).queue.tail ++ [b]) = pw.tail ++ [b]
      rw [hq]
    have hpw' : (pw.tail ++ [b]).length = W := by
      rw [List.length_append, List.length_tail]
      simp
      omega
    by_cases hc : p (bupDigest (bupAdd W s (pw.headD 0) b))
    · have hct : p (bupDigest (bupRollByte W t b)) = true := by
        rw [← hdig]; exact hc
      simp only [bupFastLoop, findCEGo, hc, hct, if_true]
      refine ⟨trivial, ?_, ⟨hW, by simpa using hpw'⟩, hcomm.2⟩
      have habst : absOf (bupRollByte W t b) =
          ⟨(bupRollByte W t b).s1, (bupRollByte W t b).s2,
            (absOf (bupRollByte W t b)).queue⟩ := rfl
      rw [habst, hq', ← hs1', ← hs2']
      simp [absOf]
    · have hct : ¬ p (bupDigest (bupRollByte W t b)) = true := by
        rw [← hdig]; exact hc
      simp only [bupFastLoop, findCEGo, hc, hct, if_false, Bool.false_eq_true]
      exact ih (pw.tail ++ [b]) (bupAdd W s (pw.headD 0) b) (bupRollByte W t b)
        (k + 1) hcomm.2 hpw' hs1' hs2' hq'

/-- The state left by the default loop is always well-formed (it is the
start state rolled over some prefix). -/
theorem findCE_bup_WF (W : Nat) (cond : BupState → Bool) (s : BupState)
    (hwf : BupWF W s) (buf : List Nat) :
    BupWF W (findCE (bupRollByte W) cond s buf).1 := by
  rcases hres : findCE (bupRollByte W) cond s buf with ⟨s1, o⟩
  cases o with
  | some i =>
    obtain ⟨_, _, hs, _⟩ := findCEGo_some (bupRollByte W) cond buf 0 s s1 i hres
    simpa [hs] using (absOf_rollList W _ s hwf).2
  | none =>
    have hs := findCEGo_none (bupRollByte W) cond buf 0 s s1 hres
    simpa [hs] using (absOf_rollList W buf s hwf).2

/-- Bup's overridden `find_chunk_edge_cond` against the trait default,
from any well-formed start state, for a digest-only predicate: same
result, abstractly equal final states, both well-formed. -/
theorem bupFindCE_default_equiv (W : Nat) (hW : 0 < W) (p : Nat → Bool)
    (s : BupState) (hwf : BupWF W s) (buf : List Nat) :
    (bupFindCE W (fun st => p (bupDigest st)) s buf).2 =
      (findCE (bupRollByte W) (fun st => p (bupDigest st)) s buf).2 ∧
    absOf (bupFindCE W (fun st => p (bupDigest st)) s buf).1 =
      absOf (findCE (bupRollByte W) (fun st => p (bupDigest st)) s buf).1 ∧
    BupWF W (bupFindCE W (fun st => p (bupDigest st)) s buf).1 ∧
    BupWF W (findCE (bupRollByte W) (fun st => p (bupDigest st)) s buf).1 := by
  by_cases hlen : buf.length ≤ W
  · have hF : bupFindCE W (fun st => p (bupDigest st)) s buf =
        findCE (bupRollByte W) (fun st => p (bupDigest st)) s buf := by
      unfold bupFindCE
      rw [List.take_of_length_le hlen]
      rcases hres : findCE (bupRollByte W) (fun st => p (bupDigest st)) s buf
        with ⟨s1, o⟩
      cases o with
      | some i => rfl
      | none =>
        have hnot : ¬ W < buf.length := by omega
        simp [hnot]
    rw [hF]
    exact ⟨rfl, rfl, findCE_bup_WF W _ s hwf buf, findCE_bup_WF W _ s hwf buf⟩
  · push_neg at hlen
    have htlen : (buf.take W).length = W := by
      rw [List.length_take]; omega
    have hsplit := findCEGo_append (bupRollByte W)
      (fun st => p (bupDigest st)) (buf.take W) (buf.drop W) 0 s
    rw [List.take_append_drop, htlen, Nat.zero_add] at hsplit
    rcases hres : findCEGo (bupRollByte W) (fun st => p (bupDigest st)) 0 s
      (buf.take W) with ⟨s1, o⟩
    rw [hres] at hsplit
    cases o with
    | some i =>
      have hD : findCE (bupRollByte W) (fun st => p (bupDigest st)) s buf =
          (s1, some i) := hsplit
      have hF : bupFindCE W (fun st => p (bupDigest st)) s buf = (s1, some i) := by
        unfold bupFindCE findCE
        rw [hres]
      rw [hD, hF]
      have hwf1 : BupWF W s1 := by
        obtain ⟨_, _, hs, _⟩ := findCEGo_some (bupRollByte W)
          (fun st => p (bupDigest st)) (buf.take W) 0 s s1 i hres
        simpa [hs] using (absOf_rollList W _ s hwf).2
      exact ⟨rfl, rfl, hwf1, hwf1⟩
    | none =>
      have hs1 : s1 = rollList (bupRollByte W) s (buf.take W) :=
        findCEGo_none (bupRollByte W) (fun st => p (bupDigest st))
          (buf.take W) 0 s s1 hres
      have hD : findCE (bupRollByte W) (fun st => p (bupDigest st)) s buf =
          findCEGo (bupRollByte W) (fun st => p (bupDigest st)) W s1
            (buf.drop W) := hsplit
      have hF : bupFindCE W (fun st => p (bupDigest st)) s buf =
          bupFastLoop W (fun st => p (bupDigest st)) s1 (buf.take W)
            (buf.drop W) W := by
        unfold bupFindCE findCE
        rw [hres]
        simp [hlen]
      have hwf1 : BupWF W s1 := by
        simpa [hs1] using (absOf_rollList W _ s hwf).2
      have hq1 : (absOf s1).queue = buf.take W := by
        rw [hs1, (absOf_rollList W _ s hwf).1,
          queueA_rollList W hW _ _ (by rw [absOf_queue_length]; exact hwf.2),
          htlen, List.drop_append_eq_append_drop,
          List.drop_eq_nil_of_le
            (by rw [absOf_queue_length]; exact le_of_eq hwf.2)]
        simp [absOf_queue_length, hwf.2]
      obtain ⟨e1, e2, w1, w2⟩ := bupFastLoop_parallel W hW p (buf.drop W)
        (buf.take W) s1 s1 W hwf1 htlen rfl rfl hq1
      rw [hD, hF]
      exact ⟨e1, e2, w1, w2⟩

/-- **C3.** Bup's optimised `find_chunk_edge_cond` is observably
equivalent to the trait's byte-by-byte default: for every well-formed
starting state, buffer, and predicate that is a function of the digest
only, both return the same result (`some` offset or `none`), and the
engine is left in observably identical states — equal abstract views,
hence equal digests after any sequence of further bytes. -/
theorem c3_bup_find_equiv (W : Nat) (p : Nat → Bool) (s : BupState)
    (buf : List Nat) (hW : 0 < W) (hwf : BupWF W s) :
    (bupFindCE W (fun st => p (bupDigest st)) s buf).2 =
      (findCE (bupRollByte W) (fun st => p (bupDigest st)) s buf).2 ∧
    absOf (bupFindCE W (fun st => p (bupDigest st)) s buf).1 =
      absOf (findCE (bupRollByte W) (fun st => p (bupDigest st)) s buf).1 ∧
    ∀ future : List Nat,
      bupDigest (rollList (bupRollByte W)
          (bupFindCE W (fun st => p (bupDigest st)) s buf).1 future) =
        bupDigest (rollList (bupRollByte W)
          (findCE (bupRollByte W) (fun st => p (bupDigest st)) s buf).1 future) := by
  obtain ⟨h1, h2, h3, h4⟩ := bupFindCE_default_equiv W hW p s hwf buf
  exact ⟨h1, h2, fun future => bup_observable_eq W _ _ h2 h3 h4 future⟩

/-- Witness for C3 at a concrete input: the default 64-byte-window
engine, parity-of-digest predicate, a 66-byte buffer (which exercises
the fused fast path) and one further byte. -/
theorem c3_bup_find_equiv_witness :
    (0 < 64 ∧ BupWF 64 (bupDefault 64)) ∧
    (bupFindCE 64 (fun st => (bupDigest st) % 2 == 1) (bupDefault 64)
        (List.range 66)).2 =
      (findCE (bupRollByte 64) (fun st => (bupDigest st) % 2 == 1)
        (bupDefault 64) (List.range 66)).2 ∧
    bupDigest (rollList (bupRollByte 64)
        (bupFindCE 64 (fun st => (bupDigest st) % 2 == 1) (bupDefault 64)
          (List.range 66)).1 [7]) =
      bupDigest (rollList (bupRollByte 64)
        (findCE (bupRollByte 64) (fun st => (bupDigest st) % 2 == 1)
          (bupDefault 64) (List.range 66)).1 [7]) := by
  have h := c3_bup_find_equiv 64 (fun d => d % 2 == 1) (bupDefault 64)
    (List.range 66) (by decide) (by decide)
  exact ⟨⟨by decide, by decide⟩, h.1, h.2.2 [7]⟩

/-- **C2 (corrected).** The claim as frozen is false: on a found edge,
`find_chunk_edge_cond` does *not* reset the engine; see
`c2_find_resets_counterexample`.  Amended: on `some r`, `r` is the
1-indexed count of bytes consumed (an edge on the very first fed byte
yields 1, never 0), and the engine is left *advanced* over exactly the
consumed prefix — exactly equal to rolling `buf.take r` for the trait
default, observably equal for Bup's fused override.  The reset on a
found boundary is instead performed by the wrapping
`RollingHashChunker::chunk_end`, which restores the default state. -/
theorem c2_find_advances_chunker_resets :
    (∀ (σ : Type) (rollB : σ → Nat → σ) (cond : σ → Bool) (s : σ)
        (buf : List Nat) (s' : σ) (r : Nat),
      findCE rollB cond s buf = (s', some r) →
      1 ≤ r ∧ r ≤ buf.length ∧ s' = rollList rollB s (buf.take r) ∧
        cond s' = true) ∧
    (∀ (W : Nat) (p : Nat → Bool) (s : BupState) (buf : List Nat)
        (s' : BupState) (r : Nat), 0 < W → BupWF W s →
      bupFindCE W (fun st => p (bupDigest st)) s buf = (s', some r) →
      1 ≤ r ∧ r ≤ buf.length ∧
        absOf s' = absOf (rollList (bupRollByte W) s (buf.take r))) ∧
    (∀ (W msk : Nat) (s : BupState) (buf : List Nat) (s' : BupState) (i : Nat),
      rhChunkEndBup W msk s buf = (s', some i) → s' = bupDefault W) ∧
    (∀ (G : Nat → Nat) (msk d : Nat) (buf : List Nat) (d' i : Nat),
      rhChunkEndGear G msk d buf = (d', some i) → d' = gearNew) := by
  refine ⟨?_, ?_, ?_, ?_⟩
  · intro σ rollB cond s buf s' r h
    obtain ⟨h1, h2, h3, h4⟩ := findCEGo_some rollB cond buf 0 s s' r h
    rw [Nat.sub_zero] at h3
    exact ⟨by omega, by omega, h3, h4⟩
  · intro W p s buf s' r hW hwf hfind
    obtain ⟨heq, habs, _, _⟩ := bupFindCE_default_equiv W hW p s hwf buf
    rw [hfind] at heq habs
    rcases hD : findCE (bupRollByte W) (fun st => p (bupDigest st)) s buf
      with ⟨sD, oD⟩
    rw [hD] at heq habs
    simp only at heq habs
    obtain ⟨h1, h2, h3, _⟩ := findCEGo_some (bupRollByte W)
      (fun st => p (bupDigest st)) buf 0 s sD r
      (by rw [← heq] at hD; exact hD)
    rw [Nat.sub_zero] at h3
    exact ⟨by omega, by omega, by rw [habs, h3]⟩
  · intro W msk s buf s' i h
    unfold rhChunkEndBup at h
    rcases hF : bupFindCE W (fun rh => (bupDigest rh &&& msk) == 0) s buf
      with ⟨sF, oF⟩
    rw [hF] at h
    cases oF with
    | some j =>
      simp only at h
      injection h with h1 _
      exact h1.symm
    | none => simp only at h; injection h with _ h2; cases h2
  · intro G msk d buf d' i h
    unfold rhChunkEndGear at h
    rcases hF : findCE (gearRollByte G) (fun g => (g &&& msk) == 0) d buf
      with ⟨dF, oF⟩
    rw [hF] at h
    cases oF with
    | some j =>
      simp only at h
      injection h with h1 _
      exact h1.symm
    | none => simp only at h; injection h with _ h2; cases h2

/-- Counterexample to C2 as frozen: with the default Bup engine, an
always-true (in particular digest-only) predicate and the one-byte
buffer `[1]`, both the overridden and the default
`find_chunk_edge_cond` return `some 1` yet leave the engine in a state
different from the freshly constructed one — no reset happens. -/
theorem c2_find_resets_counterexample :
    (bupFindCE 64 (fun _ => true) (bupDefault 64) [1]).2 = some 1 ∧
    (bupFindCE 64 (fun _ => true) (bupDefault 64) [1]).1 ≠ bupDefault 64 ∧
    (findCE (bupRollByte 64) (fun _ => true) (bupDefault 64) [1]).2 = some 1 ∧
    (findCE (bupRollByte 64) (fun _ => true) (bupDefault 64) [1]).1 ≠
      bupDefault 64 := by
  decide

/-- Witness for the amended C2, applying both the generic and the Bup
branch at concrete inputs (Gear from digest 5 over `[9]`; default Bup
over `[1]`), and the chunker-reset branch for Bup. -/
theorem c2_find_advances_chunker_resets_witness :
    (1 ≤ 1 ∧ 1 ≤ ([9] : List Nat).length ∧
      (findCE (gearRollByte gTrivial) (fun _ => true) 5 [9]).1 =
        rollList (gearRollByte gTrivial) 5 (([9] : List Nat).take 1) ∧
      (fun _ : Nat => true) ((findCE (gearRollByte gTrivial)
        (fun _ => true) 5 [9]).1) = true) ∧
    (1 ≤ 1 ∧ 1 ≤ ([1] : List Nat).length ∧
      absOf (bupFindCE 64 (fun st => (fun _ : Nat => true) (bupDigest st))
          (bupDefault 64) [1]).1 =
        absOf (rollList (bupRollByte 64) (bupDefault 64)
          (([1] : List Nat).take 1))) ∧
    (rhChunkEndBup 64 0 (bupDefault 64) [1]).1 = bupDefault 64 := by
  refine ⟨?_, ?_, ?_⟩
  · exact c2_find_advances_chunker_resets.1 Nat (gearRollByte gTrivial)
      (fun _ => true) 5 [9] _ 1 (by decide)
  · have h := c2_find_advances_chunker_resets.2.1 64 (fun _ => true)
      (bupDefault 64) [1] (bupFindCE 64
        (fun st => (fun _ : Nat => true) (bupDigest st))
        (bupDefault 64) [1]).1 1 (by decide) (by decide) (by decide)
    exact ⟨h.1, h.2.1, h.2.2⟩
  · exact c2_find_advances_chunker_resets.2.2.1 64 0 (bupDefault 64) [1]
      (rhChunkEndBup 64 0 (bupDefault 64) [1]).1 1 (by decide)

/-- Driving `for_each_chunk_end` partitions a *prefix* of the buffer:
the chunks concatenate, in order and without loss or duplication, to
exactly the consumed prefix, and appending the unconsumed remainder
restores the buffer.  Generic in the chunker's `chunk_end`. -/
theorem forEachChunkEnd_partition {σ : Type}
    (chunkEnd : σ → List Nat → σ × Option Nat) :
    ∀ (fuel : Nat) (s : σ) (buf : List Nat),
      (forEachChunkEnd chunkEnd fuel s buf).1.flatten ++
        (forEachChunkEnd chunkEnd fuel s buf).2.1 = buf := by
  intro fuel
  induction fuel with
  | zero => intro s buf; simp [forEachChunkEnd]
  | succ fuel ih =>
    intro s buf
    rcases h : chunkEnd s buf with ⟨s', o⟩
    cases o with
    | none => simp [forEachChunkEnd, h]
    | some i =>
      simp only [forEachChunkEnd, h, List.flatten_cons, List.append_assoc]
      rw [ih s' (buf.drop i), List.take_append_drop]

/-- **C9 (corrected).** The claim as frozen — that the chunks passed to
the callback concatenate to the whole buffer — is false: the final
unmatched remainder is consumed into engine state but never emitted
(`c9_roundtrip_counterexample`).  Amended: for every chunker (FastCDC
with any table, a `RollingHashChunker` over either engine, or any
`chunk_end` whatsoever), the emitted chunks concatenate in order,
without drops, duplications or reordering, to exactly the consumed
prefix; appending the unconsumed remainder reproduces the buffer. -/
theorem c9_chunks_partition_prefix :
    (∀ (σ : Type) (chunkEnd : σ → List Nat → σ × Option Nat)
        (fuel : Nat) (s : σ) (buf : List Nat),
      (forEachChunkEnd chunkEnd fuel s buf).1.flatten ++
        (forEachChunkEnd chunkEnd fuel s buf).2.1 = buf) ∧
    (∀ (G : Nat → Nat) (fuel : Nat) (c : FastCDC) (buf : List Nat),
      (forEachChunkEnd (FastCDC.chunkEnd G) fuel c buf).1.flatten ++
        (forEachChunkEnd (FastCDC.chunkEnd G) fuel c buf).2.1 = buf) ∧
    (∀ (W msk fuel : Nat) (s : BupState) (buf : List Nat),
      (forEachChunkEnd (rhChunkEndBup W msk) fuel s buf).1.flatten ++
        (forEachChunkEnd (rhChunkEndBup W msk) fuel s buf).2.1 = buf) ∧
    (∀ (G : Nat → Nat) (msk fuel d : Nat) (buf : List Nat),
      (forEachChunkEnd (rhChunkEndGear G msk) fuel d buf).1.flatten ++
        (forEachChunkEnd (rhChunkEndGear G msk) fuel d buf).2.1 = buf) :=
  ⟨fun _ chunkEnd => forEachChunkEnd_partition chunkEnd,
   fun G => forEachChunkEnd_partition (FastCDC.chunkEnd G),
   fun W msk => forEachChunkEnd_partition (rhChunkEndBup W msk),
   fun G msk => forEachChunkEnd_partition (rhChunkEndGear G msk)⟩

/-- Counterexample to C9 as frozen: a default FastCDC driven to
exhaustion over the one-byte buffer `[0]` emits no chunk at all (the
byte sits below `min_size`, `chunk_end` returns `none`), so the
concatenation of emitted chunks is `[]`, not the original buffer. -/
theorem c9_roundtrip_counterexample :
    (forEachChunkEnd (FastCDC.chunkEnd gTrivial) 1 FastCDC.new [0]).1.flatten ≠
      ([0] : List Nat) := by
  decide

/-! ### FastCDC: per-phase and per-call bounds -/

theorem phase1_spec (G : Nat → Nat) (c : FastCDC) (left : List Nat) :
    (FastCDC.phase1 G c left).1.min_size = c.min_size ∧
    (FastCDC.phase1 G c left).1.avg_size = c.avg_size ∧
    (FastCDC.phase1 G c left).1.max_size = c.max_size ∧
    ∃ n, n ≤ left.length ∧
      (FastCDC.phase1 G c left).2 = left.drop n ∧
      (FastCDC.phase1 G c left).1.current_chunk_size =
        c.current_chunk_size + n ∧
      (FastCDC.phase1 G c left).1.current_chunk_size ≤
        max c.current_chunk_size c.min_size ∧
      ((FastCDC.phase1 G c left).1.current_chunk_size < c.min_size →
        (FastCDC.phase1 G c left).2 = []) := by
  unfold FastCDC.phase1
  by_cases h : c.current_chunk_size < c.min_size
  · rw [if_pos h]
    refine ⟨rfl, rfl, rfl,
      min (c.min_size - c.current_chunk_size) left.length,
      by omega, rfl, rfl, by simp only; omega, ?_⟩
    intro hlt
    simp only at hlt
    have hmin : min (c.min_size - c.current_chunk_size) left.length =
        left.length := by omega
    simp only [hmin, List.drop_length]
  · rw [if_neg h]
    exact ⟨rfl, rfl, rfl, 0, Nat.zero_le _, rfl, rfl, le_max_left _ _,
      fun hlt => absurd hlt h⟩

theorem phase2_spec (G : Nat → Nat) (c : FastCDC) (left : List Nat) :
    (∀ i, FastCDC.phase2 G c left = Sum.inr i →
      1 ≤ i ∧ i ≤ left.length ∧
      c.current_chunk_size + i ≤ c.avg_size ∧ left ≠ []) ∧
    (∀ c2 left2, FastCDC.phase2 G c left = Sum.inl (c2, left2) →
      c2.min_size = c.min_size ∧ c2.avg_size = c.avg_size ∧
      c2.max_size = c.max_size ∧
      ∃ n, n ≤ left.length ∧ left2 = left.drop n ∧
        c2.current_chunk_size = c.current_chunk_size + n ∧
        c2.current_chunk_size ≤ max c.current_chunk_size c.avg_size ∧
        (c2.current_chunk_size < c.avg_size → left2 = [])) := by
  unfold FastCDC.phase2
  by_cases h : c.current_chunk_size < c.avg_size
  · rw [if_pos h]
    rcases hf : findCE (gearRollByte G) (fun g => (g &&& c.mask_short) == 0)
        c.gear
        (left.take (min (c.avg_size - c.current_chunk_size) left.length))
      with ⟨g, o⟩
    cases o with
    | some j =>
      constructor
      · intro i hi
        injection hi with hj
        subst hj
        obtain ⟨h1, h2, _, _⟩ := findCEGo_some (gearRollByte G)
          (fun g => (g &&& c.mask_short) == 0) _ 0 c.gear g j hf
        rw [List.length_take] at h2
        refine ⟨by omega, by omega, by omega, ?_⟩
        intro hnil
        subst hnil
        simp at h2
        omega
      · intro c2 left2 hi; cases hi
    | none =>
      constructor
      · intro i hi; cases hi
      · intro c2 left2 hi
        injection hi with hpair
        injection hpair with hc2 hleft2
        subst hc2
        subst hleft2
        refine ⟨rfl, rfl, rfl,
          min (c.avg_size - c.current_chunk_size) left.length,
          by omega, rfl, rfl, by simp only; omega, ?_⟩
        intro hlt
        simp only at hlt
        have hmin : min (c.avg_size - c.current_chunk_size) left.length =
            left.length := by omega
        simp only [hmin, List.drop_length]
  · rw [if_neg h]
    constructor
    · intro i hi; cases hi
    · intro c2 left2 hi
      injection hi with hpair
      injection hpair with hc2 hleft2
      subst hc2
      subst hleft2
      exact ⟨rfl, rfl, rfl, 0, Nat.zero_le _, rfl, rfl, le_max_left _ _,
        fun hlt => absurd hlt h⟩

theorem phase3_spec (G : Nat → Nat) (c : FastCDC) (left : List Nat) :
    (∀ i, FastCDC.phase3 G c left = Sum.inr i →
      1 ≤ i ∧ i ≤ left.length ∧
      c.current_chunk_size + i ≤ c.max_size ∧ left ≠ []) ∧
    (∀ c3 left3, FastCDC.phase3 G c left = Sum.inl (c3, left3) →
      c3.min_size = c.min_size ∧ c3.avg_size = c.avg_size ∧
      c3.max_size = c.max_size ∧
      ∃ n, n ≤ left.length ∧ left3 = left.drop n ∧
        c3.current_chunk_size = c.current_chunk_size + n ∧
        c3.current_chunk_size ≤ max c.current_chunk_size c.max_size ∧
        (c3.current_chunk_size < c.max_size → left3 = [])) := by
  unfold FastCDC.phase3
  by_cases h : c.current_chunk_size < c.max_size
  · rw [if_pos h]
    rcases hf : findCE (gearRollByte G) (fun g => (g &&& c.mask_long) == 0)
        c.gear
        (left.take (min (c.max_size - c.current_chunk_size) left.length))
      with ⟨g, o⟩
    cases o with
    | some j =>
      constructor
      · intro i hi
        injection hi with hj
        subst hj
        obtain ⟨h1, h2, _, _⟩ := findCEGo_some (gearRollByte G)
          (fun g => (g &&& c.mask_long) == 0) _ 0 c.gear g j hf
        rw [List.length_take] at h2
        refine ⟨by omega, by omega, by omega, ?_⟩
        intro hnil
        subst hnil
        simp at h2
        omega
      · intro c3 left3 hi; cases hi
    | none =>
      constructor
      · intro i hi; cases hi
      · intro c3 left3 hi
        injection hi with hpair
        injection hpair with hc3 hleft3
        subst hc3
        subst hleft3
        refine ⟨rfl, rfl, rfl,
          min (c.max_size - c.current_chunk_size) left.length,
          by omega, rfl, rfl, by simp only; omega, ?_⟩
        intro hlt
        simp only at hlt
        have hmin : min (c.max_size - c.current_chunk_size) left.length =
            left.length := by omega
        simp only [hmin, List.drop_length]
  · rw [if_neg h]
    constructor
    · intro i hi; cases hi
    · intro c3 left3 hi
      injection hi with hpair
      injection hpair with hc3 hleft3
      subst hc3
      subst hleft3
      exact ⟨rfl, rfl, rfl, 0, Nat.zero_le _, rfl, rfl, le_max_left _ _,
        fun hlt => absurd hlt h⟩

/-- One `chunk_end` call from a state below `max_size` with an ordered
size policy: a found boundary closes a chunk of length
`current_chunk_size + i` within `[min_size, max_size]` and resets the
counters (preserving the policy); with no content match the boundary is
the unconditional one exactly at `max_size`; a `none` outcome consumed
the whole slice into the pending chunk, still below `max_size`. -/
theorem chunkEnd_step (G : Nat → Nat) (c : FastCDC) (buf : List Nat)
    (hma : c.min_size ≤ c.avg_size) (ham : c.avg_size ≤ c.max_size)
    (hcur : c.current_chunk_size < c.max_size) :
    (∀ c' i, FastCDC.chunkEnd G c buf = (c', some i) →
      1 ≤ i ∧ i ≤ buf.length ∧
      c.min_size ≤ c.current_chunk_size + i ∧
      c.current_chunk_size + i ≤ c.max_size ∧
      c'.current_chunk_size = 0 ∧
      c'.min_size = c.min_size ∧ c'.avg_size = c.avg_size ∧
      c'.max_size = c.max_size ∧
      (FastCDC.contentMatch G c buf = false →
        c.current_chunk_size + i = c.max_size)) ∧
    (∀ c', FastCDC.chunkEnd G c buf = (c', none) →
      c'.current_chunk_size = c.current_chunk_size + buf.length ∧
      c'.current_chunk_size < c.max_size ∧
      c'.min_size = c.min_size ∧ c'.avg_size = c.avg_size ∧
      c'.max_size = c.max_size) := by
  obtain ⟨m1, m2, m3, n1, hn1, hl1, hcur1, hb1, he1⟩ := phase1_spec G c buf
  obtain ⟨hp2r, hp2l⟩ :=
    phase2_spec G (FastCDC.phase1 G c buf).1 (FastCDC.phase1 G c buf).2
  have hlen1 : (FastCDC.phase1 G c buf).2.length = buf.length - n1 := by
    rw [hl1, List.length_drop]
  rcases h2 : FastCDC.phase2 G (FastCDC.phase1 G c buf).1
      (FastCDC.phase1 G c buf).2 with cl2 | j
  · obtain ⟨c2, left2⟩ := cl2
    obtain ⟨f1, f2, f3, n2, hn2, hl2, hcur2, hb2, he2⟩ := hp2l c2 left2 h2
    obtain ⟨hp3r, hp3l⟩ := phase3_spec G c2 left2
    have hlen2 : left2.length = buf.length - (n1 + n2) := by
      rw [hl2, hl1, List.drop_drop, List.length_drop]
    rw [hlen1] at hn2
    rcases h3 : FastCDC.phase3 G c2 left2 with cl3 | j
    · obtain ⟨c3, left3⟩ := cl3
      obtain ⟨g1, g2, g3, n3, hn3, hl3, hcur3, hb3, he3⟩ := hp3l c3 left3 h3
      have hlen3 : left3.length = buf.length - (n1 + n2 + n3) := by
        rw [hl3, hl2, hl1, List.drop_drop, List.drop_drop, List.length_drop]
        congr 1
        omega
      rw [hlen2] at hn3
      constructor
      · intro c' i h
        unfold FastCDC.chunkEnd at h
        simp only [h2, h3] at h
        by_cases hcap : c3.max_size ≤ c3.current_chunk_size
        · rw [if_pos hcap] at h
          injection h with hc' ho
          injection ho with hi
          subst hi
          subst hc'
          have hix : buf.length - left3.length = n1 + n2 + n3 := by
            rw [hlen3]; omega
          rw [hix]
          have e2max : c2.max_size = c.max_size := by rw [f3, m3]
          have e3max : c3.max_size = c.max_size := by rw [g3, e2max]
          rw [e3max] at hcap
          refine ⟨by omega, by omega, by omega, by omega, rfl, ?_, ?_, ?_,
            fun _ => by omega⟩
          · show c3.min_size = c.min_size
            rw [g1, f1, m1]
          · show c3.avg_size = c.avg_size
            rw [g2, f2, m2]
          · show c3.max_size = c.max_size
            exact e3max
        · rw [if_neg hcap] at h
          injection h with _ ho
          cases ho
      · intro c' h
        unfold FastCDC.chunkEnd at h
        simp only [h2, h3] at h
        by_cases hcap : c3.max_size ≤ c3.current_chunk_size
        · rw [if_pos hcap] at h
          injection h with _ ho
          cases ho
        · rw [if_neg hcap] at h
          injection h with hc' _
          subst hc'
          have hcap' : c3.current_chunk_size < c2.max_size := by
            rw [← g3]; omega
          have hnil3 : left3 = [] := he3 hcap'
          have hconsumed : n1 + n2 + n3 = buf.length := by
            rw [hnil3] at hlen3
            simp at hlen3
            omega
          rw [g3, f3, m3] at hcap
          refine ⟨by omega, by omega, by rw [g1, f1, m1],
            by rw [g2, f2, m2], by rw [g3, f3, m3]⟩
    · obtain ⟨j1, j2, j3, jne⟩ := hp3r j h3
      have hge2 : c.avg_size ≤ c2.current_chunk_size := by
        by_contra hlt
        push_neg at hlt
        have : left2 = [] := he2 (by rw [m2]; exact hlt)
        exact jne this
      rw [f3, m3] at j3
      constructor
      · intro c' i h
        unfold FastCDC.chunkEnd at h
        simp only [h2, h3] at h
        injection h with hc' ho
        injection ho with hi
        subst hi
        subst hc'
        have hix : j + (buf.length - left2.length) = j + (n1 + n2) := by
          rw [hlen2]; omega
        rw [hix]
        refine ⟨by omega, by omega, by omega, by omega, rfl,
          by rw [FastCDC.resetF, f1, m1], by rw [FastCDC.resetF, f2, m2],
          by rw [FastCDC.resetF, f3, m3], ?_⟩
        intro hcm
        unfold FastCDC.contentMatch at hcm
        simp only [h2, h3] at hcm
        cases hcm
      · intro c' h
        unfold FastCDC.chunkEnd at h
        simp only [h2, h3] at h
        injection h with _ ho
        cases ho
  · obtain ⟨j1, j2, j3, jne⟩ := hp2r j h2
    have hge1 : c.min_size ≤ (FastCDC.phase1 G c buf).1.current_chunk_size := by
      by_contra hlt
      push_neg at hlt
      have : (FastCDC.phase1 G c buf).2 = [] := he1 (by rw [← m1] at hlt; omega)
      exact jne this
    rw [m2] at j3
    rw [hlen1] at j2
    constructor
    · intro c' i h
      unfold FastCDC.chunkEnd at h
      simp only [h2] at h
      injection h with hc' ho
      injection ho with hi
      subst hi
      subst hc'
      have hix : j + (buf.length - (FastCDC.phase1 G c buf).2.length) =
          j + n1 := by
        rw [hlen1]; omega
      rw [hix]
      refine ⟨by omega, by omega, by omega, by omega, rfl,
        by rw [FastCDC.resetF, m1], by rw [FastCDC.resetF, m2],
        by rw [FastCDC.resetF, m3], ?_⟩
      intro hcm
      unfold FastCDC.contentMatch at hcm
      simp only [h2] at hcm
      cases hcm
    · intro c' h
      unfold FastCDC.chunkEnd at h
      simp only [h2] at h
      injection h with _ ho
      cases ho

/-- Trace invariant for any sequence of `chunk_end` calls over arbitrary
slices: with an ordered size policy `mn ≤ av ≤ mx` and the pending
length below `mx`, every emitted chunk length lies in `[mn, mx]` and the
final pending (unemitted) length stays below `mx`. -/
theorem fastRunAcc_bounds (G : Nat → Nat) (mn av mx : Nat)
    (hma : mn ≤ av) (ham : av ≤ mx) :
    ∀ (bufs : List (List Nat)) (c : FastCDC) (acc : Nat),
      c.min_size = mn → c.avg_size = av → c.max_size = mx →
      c.current_chunk_size = acc → acc < mx →
      (∀ L ∈ (fastRunAcc G c acc bufs).1, mn ≤ L ∧ L ≤ mx) ∧
      (fastRunAcc G c acc bufs).2 < mx := by
  intro bufs
  induction bufs with
  | nil =>
    intro c acc h1 h2 h3 h4 h5
    exact ⟨by simp [fastRunAcc], by simpa [fastRunAcc] using h5⟩
  | cons buf rest ih =>
    intro c acc h1 h2 h3 h4 h5
    obtain ⟨hsome, hnone⟩ := chunkEnd_step G c buf
      (by rw [h1, h2]; exact hma) (by rw [h2, h3]; exact ham)
      (by rw [h4, h3]; exact h5)
    rcases hce : FastCDC.chunkEnd G c buf with ⟨c', o⟩
    cases o with
    | none =>
      obtain ⟨k1, k2, k3, k4, k5⟩ := hnone c' hce
      have hstep : fastRunAcc G c acc (buf :: rest) =
          fastRunAcc G c' (acc + buf.length) rest := by
        simp only [fastRunAcc, hce]
      rw [hstep]
      exact ih c' (acc + buf.length) (k3.trans h1) (k4.trans h2)
        (k5.trans h3) (by rw [k1, h4]) (by rw [← h3, ← k5]; omega)
    | some i =>
      obtain ⟨k1, k2, k3, k4, k5, k6, k7, k8, _⟩ := hsome c' i hce
      have hstep : fastRunAcc G c acc (buf :: rest) =
          ((acc + i) :: (fastRunAcc G c' 0 rest).1,
            (fastRunAcc G c' 0 rest).2) := by
        simp only [fastRunAcc, hce]
      rw [hstep]
      have hrest := ih c' 0 (k6.trans h1) (k7.trans h2) (k8.trans h3) k5
        (by rw [← h3, ← k8]; omega)
      refine ⟨?_, hrest.2⟩
      intro L hL
      simp only [List.mem_cons] at hL
      rcases hL with hL | hL
      · subst hL
        rw [← h4, ← h1, ← h3]
        exact ⟨k3, k4⟩
      · exact hrest.1 L hL

/-- **C1.** FastCDC size bound over every sequence of `chunk_end` calls
on a freshly constructed default chunker, over arbitrary buffer slices
and any Gear table: every chunk the calls close — whose length `L` is
the bytes consumed since the previous boundary, accumulated across
calls — satisfies `2048 = min_size ≤ L ≤ max_size = 65536`; the final
unflushed remainder is never emitted (on `none` it only accumulates,
always staying below `max_size`); and when no content-defined match
occurs, the emitted boundary is the unconditional one, exactly at
`L = max_size` (stated for any ordered size policy). -/
theorem c1_fastcdc_size_bounds :
    (∀ (G : Nat → Nat) (bufs : List (List Nat)) (L : Nat),
      L ∈ (fastRunAcc G FastCDC.new 0 bufs).1 →
      2048 ≤ L ∧ L ≤ 65536) ∧
    (∀ (G : Nat → Nat) (bufs : List (List Nat)),
      (fastRunAcc G FastCDC.new 0 bufs).2 < 65536) ∧
    (∀ (G : Nat → Nat) (c : FastCDC) (buf : List Nat) (c' : FastCDC) (i : Nat),
      c.min_size ≤ c.avg_size → c.avg_size ≤ c.max_size →
      c.current_chunk_size < c.max_size →
      FastCDC.contentMatch G c buf = false →
      FastCDC.chunkEnd G c buf = (c', some i) →
      c.current_chunk_size + i = c.max_size) := by
  refine ⟨?_, ?_, ?_⟩
  · intro G bufs L hL
    exact (fastRunAcc_bounds G 2048 8192 65536 (by omega) (by omega) bufs
      FastCDC.new 0 (by decide) (by decide) (by decide) (by decide)
      (by decide)).1 L hL
  · intro G bufs
    exact (fastRunAcc_bounds G 2048 8192 65536 (by omega) (by omega) bufs
      FastCDC.new 0 (by decide) (by decide) (by decide) (by decide)
      (by decide)).2
  · intro G c buf c' i hma ham hcur hcm hce
    obtain ⟨_, _, _, _, _, _, _, _, hcap⟩ :=
      (chunkEnd_step G c buf hma ham hcur).1 c' i hce
    exact hcap hcm

/-- Witness for C1 at a concrete input: the hard-cap branch on a tiny
ordered policy (`min = avg = 1`, `max = 2`) with a table whose digests
never match the masks, emitting the unconditional boundary exactly at
`max_size` after consuming two bytes. -/
theorem c1_fastcdc_size_bounds_witness :
    (1 : Nat) ≤ 1 ∧ (1 : Nat) ≤ 2 ∧ (0 : Nat) < 2 ∧
    FastCDC.contentMatch (fun _ => 1) ⟨0, 0, 1, 1, 1, 1, 2⟩ [5, 5] = false ∧
    (0 : Nat) + 2 = 2 := by
  refine ⟨by decide, by decide, by decide, by decide, ?_⟩
  exact c1_fastcdc_size_bounds.2.2 (fun _ => 1) ⟨0, 0, 1, 1, 1, 1, 2⟩ [5, 5]
    (FastCDC.chunkEnd (fun _ => 1) ⟨0, 0, 1, 1, 1, 1, 2⟩ [5, 5]).1 2
    (by decide) (by decide) (by decide) (by decide) (by decide)

/-! ### Bup safety: the instrumented operations never underflow or go
out of bounds from reachable states -/

/-- One instrumented `roll_byte` from a well-formed, invariant-satisfying
state: the window access is in bounds, both subtractions in `add` are
exact, and the invariant is preserved. -/
theorem bupRollByteC_safe (W : Nat) (hW : 0 < W) (s : BupState) (b : Nat)
    (hwf : BupWF W s) (hinv : InvA W (absOf s)) :
    (bupRollByteC W s b).2 = true ∧
    BupWF W (bupRollByteC W s b).1 ∧
    InvA W (absOf (bupRollByteC W s b).1) := by
  have hofslen : s.wofs < s.window.length := by
    obtain ⟨ho, hl⟩ := hwf; omega
  obtain ⟨hstep, hs1, hs2⟩ := InvA_step W (absOf s) b hW hinv
  rw [bup_head_queue s hofslen] at hs1 hs2
  have hcomm := absOf_rollByte W s b hwf
  have hproj : (bupRollByteC W s b).1 = bupRollByte W s b := rfl
  refine ⟨?_, hcomm.2, ?_⟩
  · unfold bupRollByteC bupAddSafe
    simp only [Bool.and_eq_true, decide_eq_true_eq]
    exact ⟨hofslen, hs1, hs2⟩
  · rw [hproj, hcomm.1]
    exact hstep

/-- Generalising the `foldl` accumulator of the instrumented list roll. -/
theorem bupRollListC_acc (W : Nat) :
    ∀ (buf : List Nat) (s : BupState) (acc : Bool),
      buf.foldl (fun p b => ((bupRollByteC W p.1 b).1,
          p.2 && (bupRollByteC W p.1 b).2)) (s, acc) =
        ((bupRollListC W s buf).1, acc && (bupRollListC W s buf).2) := by
  intro buf
  induction buf with
  | nil =>
    intro s acc
    simp [bupRollListC]
  | cons b rest ih =>
    intro s acc
    show List.foldl _ ((bupRollByteC W s b).1, acc && (bupRollByteC W s b).2)
        rest = _
    rw [ih]
    have hr : bupRollListC W s (b :: rest) =
        ((bupRollListC W (bupRollByteC W s b).1 rest).1,
          (true && (bupRollByteC W s b).2) &&
            (bupRollListC W (bupRollByteC W s b).1 rest).2) := by
      show List.foldl _ ((bupRollByteC W s b).1, true && (bupRollByteC W s b).2)
          rest = _
      rw [ih]
    rw [hr]
    simp [Bool.and_assoc]

/-- Instrumented sequential roll: safe and invariant-preserving, and its
state is the plain byte-by-byte roll. -/
theorem bupRollListC_safe (W : Nat) (hW : 0 < W) :
    ∀ (buf : List Nat) (s : BupState), BupWF W s → InvA W (absOf s) →
      (bupRollListC W s buf).2 = true ∧
      BupWF W (bupRollListC W s buf).1 ∧
      InvA W (absOf (bupRollListC W s buf).1) ∧
      (bupRollListC W s buf).1 = rollList (bupRollByte W) s buf := by
  intro buf
  induction buf with
  | nil => intro s hwf hinv; exact ⟨rfl, hwf, hinv, rfl⟩
  | cons b rest ih =>
    intro s hwf hinv
    obtain ⟨hok, hwf', hinv'⟩ := bupRollByteC_safe W hW s b hwf hinv
    obtain ⟨rok, rwf, rinv, rst⟩ := ih (bupRollByteC W s b).1 hwf' hinv'
    have hsplit : bupRollListC W s (b :: rest) =
        ((bupRollListC W (bupRollByteC W s b).1 rest).1,
          (true && (bupRollByteC W s b).2) &&
            (bupRollListC W (bupRollByteC W s b).1 rest).2) := by
      show List.foldl _ ((bupRollByteC W s b).1, true && (bupRollByteC W s b).2)
          rest = _
      rw [bupRollListC_acc]
    rw [hsplit]
    refine ⟨by simp [hok, rok], rwf, rinv, ?_⟩
    rw [rst]
    rfl

/-- Instrumented windowed roll (`Bup::roll`): safe from reachable
states. -/
theorem bupRollC_safe (W : Nat) (hW : 0 < W) (buf : List Nat) (s : BupState)
    (hwf : BupWF W s) (hinv : InvA W (absOf s)) :
    (bupRollC W s buf).2 = true ∧
    BupWF W (bupRollC W s buf).1 ∧
    InvA W (absOf (bupRollC W s buf).1) := by
  unfold bupRollC
  obtain ⟨h1, h2, h3, _⟩ := bupRollListC_safe W hW
    (if buf.length < W then buf else buf.drop (buf.length - W)) s hwf hinv
  exact ⟨h1, h2, h3⟩

/-- Instrumented first (window-filling) loop of Bup's find: safe,
invariant-preserving, and computing the plain loop's result. -/
theorem bupFindCEGoC_safe (W : Nat) (hW : 0 < W) (cond : BupState → Bool) :
    ∀ (buf : List Nat) (i : Nat) (s : BupState),
      BupWF W s → InvA W (absOf s) →
      (bupFindCEGoC W cond i s buf).2 = true ∧
      BupWF W (bupFindCEGoC W cond i s buf).1.1 ∧
      InvA W (absOf (bupFindCEGoC W cond i s buf).1.1) ∧
      (bupFindCEGoC W cond i s buf).1 =
        findCEGo (bupRollByte W) cond i s buf := by
  intro buf
  induction buf with
  | nil => intro i s hwf hinv; exact ⟨rfl, hwf, hinv, rfl⟩
  | cons b rest ih =>
    intro i s hwf hinv
    obtain ⟨hok, hwf', hinv'⟩ := bupRollByteC_safe W hW s b hwf hinv
    have hproj : (bupRollByteC W s b).1 = bupRollByte W s b := rfl
    by_cases hc : cond (bupRollByte W s b)
    · have hc' : cond (bupRollByteC W s b).1 = true := by rw [hproj]; exact hc
      have hfc : bupFindCEGoC W cond i s (b :: rest) =
          (((bupRollByteC W s b).1, some (i + 1)), (bupRollByteC W s b).2) := by
        simp only [bupFindCEGoC, hc', if_true]
      have hgc : findCEGo (bupRollByte W) cond i s (b :: rest) =
          (bupRollByte W s b, some (i + 1)) := by
        simp only [findCEGo, hc, if_true]
      rw [hfc, hgc]
      exact ⟨hok, hwf', hinv', by rw [hproj]⟩
    · have hc' : ¬ cond (bupRollByteC W s b).1 = true := by
        rw [hproj]; exact hc
      have hfc : bupFindCEGoC W cond i s (b :: rest) =
          ((bupFindCEGoC W cond (i + 1) (bupRollByteC W s b).1 rest).1,
            (bupRollByteC W s b).2 &&
              (bupFindCEGoC W cond (i + 1) (bupRollByteC W s b).1 rest).2) := by
        simp only [bupFindCEGoC, hc', if_false, Bool.false_eq_true]
      have hgc : findCEGo (bupRollByte W) cond i s (b :: rest) =
          findCEGo (bupRollByte W) cond (i + 1) (bupRollByte W s b) rest := by
        simp only [findCEGo, hc, if_false, Bool.false_eq_true]
      obtain ⟨rok, rwf, rinv, rst⟩ := ih (i + 1) (bupRollByteC W s b).1 hwf' hinv'
      rw [hfc, hgc]
      refine ⟨by simp [hok, rok], rwf, rinv, ?_⟩
      rw [rst, hproj]

/-- Instrumented fused fast loop: when the accumulators satisfy the
invariant relative to the live window contents `pw`, every `add` along
the way is exact, and the reconciled final state is well-formed and
invariant-satisfying. -/
theorem bupFastLoopC_safe (W : Nat) (hW : 0 < W) (cond : BupState → Bool) :
    ∀ (rest pw : List Nat) (s : BupState) (k : Nat),
      pw.length = W → InvA W ⟨s.s1, s.s2, pw⟩ →
      (bupFastLoopC W cond s pw rest k).2 = true ∧
      BupWF W (bupFastLoopC W cond s pw rest k).1.1 ∧
      InvA W (absOf (bupFastLoopC W cond s pw rest k).1.1) := by
  intro rest
  induction rest with
  | nil =>
    intro pw s k hpw hinv
    refine ⟨rfl, ⟨hW, hpw⟩, ?_⟩
    have habs : absOf ({ s with wofs := 0, window := pw } : BupState) =
        ⟨s.s1, s.s2, pw⟩ := by
      simp [absOf]
    show InvA W (absOf ({ s with wofs := 0, window := pw } : BupState))
    rw [habs]
    exact hinv
  | cons b rest' ih =>
    intro pw s k hpw hinv
    obtain ⟨hstep, hs1, hs2⟩ := InvA_step W ⟨s.s1, s.s2, pw⟩ b hW hinv
    have hok : bupAddSafe W s (pw.headD 0) b = true := by
      unfold bupAddSafe
      simp only [Bool.and_eq_true, decide_eq_true_eq]
      exact ⟨hs1, hs2⟩
    have hghost : bupRollByteA W ⟨s.s1, s.s2, pw⟩ b =
        ⟨(bupAdd W s (pw.headD 0) b).s1, (bupAdd W s (pw.headD 0) b).s2,
          pw.tail ++ [b]⟩ := rfl
    rw [hghost] at hstep
    have hpw' : (pw.tail ++ [b]).length = W := by
      rw [List.length_append, List.length_tail]
      simp
      omega
    by_cases hc : cond (bupAdd W s (pw.headD 0) b)
    · simp only [bupFastLoopC, hc, if_true]
      refine ⟨hok, ⟨hW, by simpa using hpw'⟩, ?_⟩
      have habs : absOf ({ bupAdd W s (pw.headD 0) b with
          wofs := 0, window := pw.tail ++ [b] } : BupState) =
          ⟨(bupAdd W s (pw.headD 0) b).s1, (bupAdd W s (pw.headD 0) b).s2,
            pw.tail ++ [b]⟩ := by
        simp [absOf]
      rw [habs]
      exact hstep
    · simp only [bupFastLoopC, hc, if_false, Bool.false_eq_true]
      obtain ⟨rok, rwf, rinv⟩ := ih (pw.tail ++ [b])
        (bupAdd W s (pw.headD 0) b) (k + 1) hpw' hstep
      refine ⟨?_, rwf, rinv⟩
      show (bupAddSafe W s (pw.headD 0) b &&
        (bupFastLoopC W cond (bupAdd W s (pw.headD 0) b)
          (pw.tail ++ [b]) rest' (k + 1)).2) = true
      rw [Bool.and_eq_true]
      exact ⟨hok, rok⟩

/-- Instrumented `Bup::find_chunk_edge_cond`: from a well-formed,
invariant-satisfying state, every window access and every subtraction in
both the window-filling loop and the fused fast loop is safe, and the
resulting state is again well-formed and invariant-satisfying. -/
theorem bupFindCEC_safe (W : Nat) (hW : 0 < W) (cond : BupState → Bool)
    (s : BupState) (buf : List Nat) (hwf : BupWF W s)
    (hinv : InvA W (absOf s)) :
    (bupFindCEC W cond s buf).2 = true ∧
    BupWF W (bupFindCEC W cond s buf).1.1 ∧
    InvA W (absOf (bupFindCEC W cond s buf).1.1) := by
  obtain ⟨ok1, wf1, inv1, proj1⟩ :=
    bupFindCEGoC_safe W hW cond (buf.take W) 0 s hwf hinv
  rcases hres : bupFindCEGoC W cond 0 s (buf.take W) with ⟨⟨s1, o⟩, okb⟩
  rw [hres] at ok1 wf1 inv1 proj1
  simp only at ok1 wf1 inv1 proj1
  cases o with
  | some i =>
    have hred : bupFindCEC W cond s buf = ((s1, some i), okb) := by
      simp only [bupFindCEC, hres]
    rw [hred]
    exact ⟨ok1, wf1, inv1⟩
  | none =>
    by_cases hlen : W < buf.length
    · have hs1 : s1 = rollList (bupRollByte W) s (buf.take W) :=
        findCEGo_none (bupRollByte W) cond (buf.take W) 0 s s1 proj1.symm
      have htlen : (buf.take W).length = W := by
        rw [List.length_take]; omega
      have hq1 : (absOf s1).queue = buf.take W := by
        rw [hs1, (absOf_rollList W _ s hwf).1,
          queueA_rollList W hW _ _ (by rw [absOf_queue_length]; exact hwf.2),
          htlen, List.drop_append_eq_append_drop,
          List.drop_eq_nil_of_le
            (by rw [absOf_queue_length]; exact le_of_eq hwf.2)]
        simp [absOf_queue_length, hwf.2]
      have he : absOf s1 = ⟨s1.s1, s1.s2, buf.take W⟩ := by
        rw [← hq1]
        rfl
      have hghostInv : InvA W ⟨s1.s1, s1.s2, buf.take W⟩ := he ▸ inv1
      obtain ⟨fok, fwf, finv⟩ := bupFastLoopC_safe W hW cond (buf.drop W)
        (buf.take W) s1 W htlen hghostInv
      have hred : bupFindCEC W cond s buf =
          ((bupFastLoopC W cond s1 (buf.take W) (buf.drop W) W).1,
            okb && (bupFastLoopC W cond s1 (buf.take W) (buf.drop W) W).2) := by
        simp only [bupFindCEC, hres, hlen, if_true]
      rw [hred]
      exact ⟨by simp [ok1, fok], fwf, finv⟩
    · have hred : bupFindCEC W cond s buf = ((s1, none), okb) := by
        simp only [bupFindCEC, hres, hlen, if_false]
      rw [hred]
      exact ⟨ok1, wf1, inv1⟩

/-- One instrumented operation from a reachable state is safe and lands
in a reachable state. -/
theorem bupExecC_safe (W : Nat) (hW : 0 < W) (s : BupState) (op : BupOp)
    (hwf : BupWF W s) (hinv : InvA W (absOf s)) :
    (bupExecC W s op).2 = true ∧
    BupWF W (bupExecC W s op).1 ∧
    InvA W (absOf (bupExecC W s op).1) := by
  cases op with
  | rollByteOp b => exact bupRollByteC_safe W hW s b hwf hinv
  | rollOp buf => exact bupRollC_safe W hW buf s hwf hinv
  | findOp buf cond =>
    obtain ⟨h1, h2, h3⟩ := bupFindCEC_safe W hW cond s buf hwf hinv
    exact ⟨h1, h2, h3⟩
  | resetOp => exact ⟨rfl, BupWF_default W hW, InvA_default W⟩

theorem bupExecListC_safe (W : Nat) (hW : 0 < W) :
    ∀ (ops : List BupOp) (s : BupState),
      BupWF W s → InvA W (absOf s) →
      (bupExecListC W s ops).2 = true ∧
      BupWF W (bupExecListC W s ops).1 ∧
      InvA W (absOf (bupExecListC W s ops).1) := by
  intro ops
  induction ops with
  | nil => intro s hwf hinv; exact ⟨rfl, hwf, hinv⟩
  | cons op rest ih =>
    intro s hwf hinv
    obtain ⟨h1, h2, h3⟩ := bupExecC_safe W hW s op hwf hinv
    obtain ⟨r1, r2, r3⟩ := ih (bupExecC W s op).1 h2 h3
    exact ⟨by simp [bupExecListC, h1, r1], by simpa [bupExecListC] using r2,
      by simpa [bupExecListC] using r3⟩

/-- **C10.** Bup internal safety: starting from construction, every
sequence of operations (`roll_byte`, `roll`, `find_chunk_edge_cond`
with any predicate, `reset`) executes with every circular-buffer access
in bounds (in particular `wofs ∈ [0, W)` throughout — every intermediate
state is the final state of a prefix of `ops`, and the in-loop accesses
are checked by the instrumentation bit) and with both `usize`
subtractions inside `add` exact — never underflowing, wrapping or
panicking; the resulting state is again well-formed and satisfies the
accumulator invariant. -/
theorem c10_bup_safety (W : Nat) (ops : List BupOp) (hW : 0 < W) :
    (bupExecListC W (bupDefault W) ops).2 = true ∧
    BupWF W (bupExecListC W (bupDefault W) ops).1 ∧
    InvA W (absOf (bupExecListC W (bupDefault W) ops).1) ∧
    (bupExecListC W (bupDefault W) ops).1.wofs < W := by
  obtain ⟨h1, h2, h3⟩ := bupExecListC_safe W hW ops (bupDefault W)
    (BupWF_default W hW) (InvA_default W)
  exact ⟨h1, h2, h3, h2.1⟩

/-- Witness for C10 at a concrete input: the default 64-byte window, a
mixed operation sequence exercising the byte roll, the windowed roll, a
`find_chunk_edge_cond` that runs the fused fast path, and a reset. -/
theorem c10_bup_safety_witness :
    0 < 64 ∧
    (bupExecListC 64 (bupDefault 64)
        [BupOp.rollByteOp 7, BupOp.rollOp (List.range 70),
          BupOp.findOp (List.range 66) (fun st => bupDigest st % 3 == 0),
          BupOp.resetOp, BupOp.rollByteOp 1]).2 = true ∧
    (bupExecListC 64 (bupDefault 64)
        [BupOp.rollByteOp 7, BupOp.rollOp (List.range 70),
          BupOp.findOp (List.range 66) (fun st => bupDigest st % 3 == 0),
          BupOp.resetOp, BupOp.rollByteOp 1]).1.wofs < 64 := by
  have h := c10_bup_safety 64
    [BupOp.rollByteOp 7, BupOp.rollOp (List.range 70),
      BupOp.findOp (List.range 66) (fun st => bupDigest st % 3 == 0),
      BupOp.resetOp, BupOp.rollByteOp 1] (by decide)
  exact ⟨by decide, h.1, h.2.2.2⟩

end Rsroll
